import Mathlib

/-!
Verification of the ranking-and-enrichment pipeline of the movie recommender
(`src/app/api/recommend/route.ts`, the heap variant, and `src/unnamed/part_000`,
the sorted-list variant).

Modeling conventions:
* JavaScript numbers are modeled as exact rationals `ℚ` (scores, ratings,
  factor entries); machine floating point is not modeled.
* `Float32Array`/arrays are modeled as `List ℚ`, indexed with `List.getD`;
  the verified paths only read in-range indices.
* JS `Set` is a `Finset ℤ`; JS `Map` used as the enrichment cache is an
  association list; thrown exceptions / rejected promises are `Except.error`.
-/

namespace RecSys

/-- An entry held by the Top-K selector: `{ movieId, score }` in the source. -/
structure TopItem where
  movieId : ℤ
  score   : ℚ
deriving DecidableEq

instance : Inhabited TopItem := ⟨⟨0, 0⟩⟩

/-- Array read `a[i]` (in-range on all verified paths). -/
def hget (a : List TopItem) (i : ℕ) : TopItem := a.getD i default

/-- The destructuring swap `[this.a[p], this.a[i]] = [this.a[i], this.a[p]]`. -/
def lswap (a : List TopItem) (i j : ℕ) : List TopItem :=
  (a.set i (hget a j)).set j (hget a i)

/-- Descending-by-score comparison, the order produced by
`sort((x, y) => y.score - x.score)`. -/
def rdesc (x y : TopItem) : Prop := y.score ≤ x.score

instance : DecidableRel rdesc := fun x y => (inferInstance : Decidable (y.score ≤ x.score))

instance : IsTotal TopItem rdesc := ⟨fun x y => le_total y.score x.score⟩

instance : IsTrans TopItem rdesc := ⟨fun _ _ _ h₁ h₂ => le_trans h₂ h₁⟩

/-- Strictly-descending comparison (used for uniqueness arguments). -/
def rsdesc (x y : TopItem) : Prop := y.score < x.score

instance : IsAntisymm TopItem rsdesc := ⟨fun _ _ h₁ h₂ => ((lt_asymm h₁) h₂).elim⟩

/-- `array.sort((x, y) => y.score - x.score)`: a stable descending sort by
score (JS `Array.prototype.sort` is stable). -/
def sortDesc (l : List TopItem) : List TopItem := List.insertionSort rdesc l

theorem lswap_length (a : List TopItem) (i j : ℕ) : (lswap a i j).length = a.length := by
  simp [lswap]

/-- The `while (i > 0)` loop of `MinHeap.bubbleUp`, with an explicit fuel
bound on the iteration count (`fuel = i` always suffices: the loop index
strictly decreases). -/
def bubbleUpF : ℕ → List TopItem → ℕ → List TopItem
  | 0, a, _ => a
  | fuel + 1, a, i =>
    if i = 0 then a
    else if (hget a ((i - 1) / 2)).score ≤ (hget a i).score then a
    else bubbleUpF fuel (lswap a ((i - 1) / 2) i) ((i - 1) / 2)

/-- `MinHeap.bubbleUp`. -/
def bubbleUp (a : List TopItem) (i : ℕ) : List TopItem := bubbleUpF i a i

/-- The left-child comparison of `MinHeap.bubbleDown`: the index `m` after
the first `if` of a loop round. -/
def bdTarget1 (a : List TopItem) (i : ℕ) : ℕ :=
  if 2 * i + 1 < a.length ∧ (hget a (2 * i + 1)).score < (hget a i).score
  then 2 * i + 1 else i

/-- The index `m` selected by one round of `MinHeap.bubbleDown` at `i`
(`m = i`, then possibly the left child, then possibly the right child). -/
def bdTarget (a : List TopItem) (i : ℕ) : ℕ :=
  if 2 * i + 2 < a.length ∧ (hget a (2 * i + 2)).score < (hget a (bdTarget1 a i)).score
  then 2 * i + 2 else bdTarget1 a i

theorem bdTarget1_bounds (a : List TopItem) (i : ℕ) (h : bdTarget1 a i ≠ i) :
    i < bdTarget1 a i ∧ bdTarget1 a i < a.length := by
  unfold bdTarget1 at h ⊢
  split_ifs at h ⊢ with h1
  · exact ⟨by omega, h1.1⟩
  · omega

theorem bdTarget_bounds (a : List TopItem) (i : ℕ) (h : bdTarget a i ≠ i) :
    i < bdTarget a i ∧ bdTarget a i < a.length := by
  unfold bdTarget at h ⊢
  split_ifs at h ⊢ with h1
  · exact ⟨by omega, h1.1⟩
  · exact bdTarget1_bounds a i h

/-- The `while (true)` loop of `MinHeap.bubbleDown`, with an explicit fuel
bound on the iteration count (`fuel = a.length` always suffices: the loop
index strictly increases and stays below the length). -/
def bubbleDownF : ℕ → List TopItem → ℕ → List TopItem
  | 0, a, _ => a
  | fuel + 1, a, i =>
    if bdTarget a i = i then a
    else bubbleDownF fuel (lswap a (bdTarget a i) i) (bdTarget a i)

/-- `MinHeap.bubbleDown`. -/
def bubbleDown (a : List TopItem) (i : ℕ) : List TopItem := bubbleDownF a.length a i

/-- `MinHeap.push`. -/
def heapPush (a : List TopItem) (x : TopItem) : List TopItem :=
  bubbleUp (a ++ [x]) a.length

/-- `MinHeap.pop`: returns the popped root (if any) and the remaining heap. -/
def heapPop (a : List TopItem) : Option TopItem × List TopItem :=
  match a with
  | [] => (none, [])
  | top :: rest =>
      let body := (top :: rest).dropLast
      if body.isEmpty then (some top, [])
      else (some top, bubbleDown (body.set 0 ((top :: rest).getLastD default)) 0)

/-- `MinHeap.peek`. -/
def heapPeek (a : List TopItem) : TopItem := hget a 0

/-- One iteration of the scan loop in `topKFromScores` for a non-excluded
candidate. -/
def topKStep (K : ℕ) (h : List TopItem) (x : TopItem) : List TopItem :=
  if h.length < K then heapPush h x
  else if (heapPeek h).score < x.score then heapPush (heapPop h).2 x
  else h

/-- The Model Store state populated by `loadModelOnce`. -/
structure Model where
  rows : ℕ
  cols : ℕ
  itemFactors : List ℚ
  movieIds : List ℤ
  mid2tmdb : ℤ → Option ℤ

/-- `topKFromScores(scores, K, exclude)` (heap variant,
`src/app/api/recommend/route.ts`): scan all rows, skip excluded ids, keep a
size-`K` min-heap, finally `heap.toArrayDesc()`. -/
def topKFromScores (M : Model) (scores : List ℚ) (K : ℕ) (exclude : Finset ℤ) :
    List TopItem :=
  sortDesc ((List.range M.rows).foldl
    (fun h i =>
      if (M.movieIds.getD i 0) ∈ exclude then h
      else topKStep K h ⟨M.movieIds.getD i 0, scores.getD i 0⟩) [])

/-- One iteration of the scan loop in `topNFromScores` for a non-excluded
candidate (push-and-sort, or replace-last-and-sort). -/
def topNStep (N : ℕ) (top : List TopItem) (x : TopItem) : List TopItem :=
  if top.length < N then sortDesc (top ++ [x])
  else if (top.getLastD default).score < x.score then sortDesc (top.dropLast ++ [x])
  else top

/-- `topNFromScores(scores, N, exclude)` (sorted-list variant,
`src/unnamed/part_000`). -/
def topNFromScores (M : Model) (scores : List ℚ) (N : ℕ) (exclude : Finset ℤ) :
    List TopItem :=
  (List.range M.rows).foldl
    (fun top i =>
      if (M.movieIds.getD i 0) ∈ exclude then top
      else topNStep N top ⟨M.movieIds.getD i 0, scores.getD i 0⟩) []

/-- The per-row candidate `(movieIds[i], scores[i])` pairs scanned by both
selectors. -/
def candidates (M : Model) (scores : List ℚ) : List TopItem :=
  (List.range M.rows).map (fun i => ⟨M.movieIds.getD i 0, scores.getD i 0⟩)

/-- The non-excluded candidates. -/
def nonExcluded (M : Model) (scores : List ℚ) (exclude : Finset ℤ) : List TopItem :=
  (candidates M scores).filter (fun t => decide (t.movieId ∉ exclude))

/-- Modelled from the spec: the brute-force Top-K reference — take all
non-excluded catalog items, sort descending by score (the stable descending
sort), keep the first `K`. -/
def bruteForceTopK (M : Model) (scores : List ℚ) (K : ℕ) (exclude : Finset ℤ) :
    List TopItem :=
  (sortDesc (nonExcluded M scores exclude)).take K

/-- The pair set `(movieId, score)` of a selector output. -/
def pairSet (l : List TopItem) : Finset (ℤ × ℚ) :=
  (l.map (fun t => (t.movieId, t.score))).toFinset

/-! ### Basic facts about `lswap` and `hget` -/

theorem hget_eq_getElem (a : List TopItem) {i : ℕ} (h : i < a.length) :
    hget a i = a[i] := List.getD_eq_getElem a default h

theorem hget_lswap_snd (a : List TopItem) (i : ℕ) {j : ℕ} (hj : j < a.length) :
    hget (lswap a i j) j = hget a i := by
  have hj1 : j < ((a.set i (hget a j)).set j (hget a i)).length := by simpa using hj
  rw [lswap, hget, List.getD_eq_getElem _ _ hj1, List.getElem_set_self]

theorem hget_lswap_fst (a : List TopItem) {i j : ℕ} (hi : i < a.length)
    (hj : j < a.length) : hget (lswap a i j) i = hget a j := by
  rcases eq_or_ne i j with rfl | hij
  · exact hget_lswap_snd a i hi
  · have hi1 : i < ((a.set i (hget a j)).set j (hget a i)).length := by simpa using hi
    have hi2 : i < (a.set i (hget a j)).length := by simpa using hi
    rw [lswap, hget, List.getD_eq_getElem _ _ hi1, List.getElem_set_ne (Ne.symm hij),
      List.getElem_set_self]

theorem hget_lswap_other (a : List TopItem) {i j k : ℕ} (hki : k ≠ i) (hkj : k ≠ j) :
    hget (lswap a i j) k = hget a k := by
  simp only [lswap, hget, List.getD_eq_getElem?_getD,
    List.getElem?_set_ne (Ne.symm hkj), List.getElem?_set_ne (Ne.symm hki)]

theorem lswap_perm (a : List TopItem) {i j : ℕ} (hi : i < a.length)
    (hj : j < a.length) : (lswap a i j).Perm a := by
  rw [List.perm_iff_count]
  intro b
  have hi1 : i < (a.set i (hget a j)).length := by simpa using hi
  have hj1 : j < (a.set i (hget a j)).length := by simpa using hj
  have hset : (a.set i (hget a j))[j] = a[j] := by
    rcases eq_or_ne i j with rfl | hij
    · rw [List.getElem_set_self, hget_eq_getElem a hj]
    · exact List.getElem_set_ne hij hj1
  rw [lswap, List.count_set _ _ _ _ hj1, List.count_set _ _ _ _ hi, hset,
    hget_eq_getElem a hi, hget_eq_getElem a hj]
  have hpc : (if (a[i] == b) = true then 1 else 0) ≤ List.count b a := by
    split_ifs with h
    · exact List.count_pos_iff.mpr (by rw [← eq_of_beq h]; exact List.getElem_mem hi)
    · exact Nat.zero_le _
  have hqc : (if (a[j] == b) = true then 1 else 0) ≤ List.count b a := by
    split_ifs with h
    · exact List.count_pos_iff.mpr (by rw [← eq_of_beq h]; exact List.getElem_mem hj)
    · exact Nat.zero_le _
  omega

/-! ### The min-heap invariant -/

/-- Every non-root position is at least its parent in score: the invariant
maintained by `MinHeap`. -/
def IsMinHeap (a : List TopItem) : Prop :=
  ∀ j, 0 < j → j < a.length → (hget a ((j - 1) / 2)).score ≤ (hget a j).score

theorem isMinHeap_nil : IsMinHeap [] := by intro j _ hj; simp at hj

theorem isMinHeap_root_le (a : List TopItem) (ha : IsMinHeap a) :
    ∀ j, j < a.length → (hget a 0).score ≤ (hget a j).score := by
  intro j
  induction j using Nat.strong_induction_on with
  | _ j ih =>
    intro hj
    rcases Nat.eq_zero_or_pos j with rfl | hpos
    · exact le_refl _
    · exact le_trans (ih ((j - 1) / 2) (by omega) (by omega)) (ha j hpos hj)

/-! ### `bubbleUp` restores the heap invariant after a push -/

/-- The invariant of the `bubbleUp` loop: the heap property may fail only at
`i`, and the children of `i` (if any) already dominate the parent of `i`. -/
def UpInv (a : List TopItem) (i : ℕ) : Prop :=
  (∀ j, 0 < j → j < a.length → j ≠ i →
    (hget a ((j - 1) / 2)).score ≤ (hget a j).score) ∧
  (∀ j, 0 < j → j < a.length → (j - 1) / 2 = i → 0 < i →
    (hget a ((i - 1) / 2)).score ≤ (hget a j).score)

theorem upInv_step (a : List TopItem) (i : ℕ) (hi : i < a.length) (hi0 : 0 < i)
    (hlt : (hget a i).score < (hget a ((i - 1) / 2)).score) (hinv : UpInv a i) :
    UpInv (lswap a ((i - 1) / 2) i) ((i - 1) / 2) := by
  set p := (i - 1) / 2 with hp
  have hpi : p < i := by omega
  have hplen : p < a.length := lt_trans hpi hi
  have e1 : hget (lswap a p i) p = hget a i := hget_lswap_fst a hplen hi
  have e2 : hget (lswap a p i) i = hget a p := hget_lswap_snd a p hi
  have elen : (lswap a p i).length = a.length := lswap_length a p i
  constructor
  · intro j hj0 hjlen hjp
    rw [elen] at hjlen
    rcases eq_or_ne j i with rfl | hji
    · -- position i now holds the old parent value; its parent `p` holds the old a[i]
      have : (j - 1) / 2 = p := hp.symm
      rw [this, e1, e2]
      exact le_of_lt hlt
    · have ej : hget (lswap a p i) j = hget a j := hget_lswap_other a hjp hji
      rw [ej]
      rcases eq_or_ne ((j - 1) / 2) p with hpar | hpar
      · -- `j` is the other child of `p`
        rw [hpar, e1]
        exact le_trans (le_of_lt hlt) (hpar ▸ hinv.1 j hj0 hjlen hji)
      · rcases eq_or_ne ((j - 1) / 2) i with hpar2 | hpar2
        · rw [hpar2, e2]
          exact hinv.2 j hj0 hjlen hpar2 hi0
        · rw [hget_lswap_other a hpar hpar2]
          exact hinv.1 j hj0 hjlen hji
  · intro j hj0 hjlen hjpar hp0
    rw [elen] at hjlen
    have hq : (p - 1) / 2 < p := by omega
    have hqi : (p - 1) / 2 ≠ i := by omega
    have hqp : (p - 1) / 2 ≠ p := by omega
    rw [hget_lswap_other a hqp hqi]
    have hap : (hget a ((p - 1) / 2)).score ≤ (hget a p).score :=
      hinv.1 p hp0 hplen (by omega)
    rcases eq_or_ne j i with rfl | hji
    · rw [e2]; exact hap
    · have hjp : j ≠ p := by omega
      rw [hget_lswap_other a hjp hji]
      exact le_trans hap (hjpar ▸ hinv.1 j hj0 hjlen hji)

theorem bubbleUpF_isMinHeap :
    ∀ (fuel : ℕ) (a : List TopItem) (i : ℕ), i ≤ fuel → i < a.length → UpInv a i →
      IsMinHeap (bubbleUpF fuel a i)
  | 0, a, i, hfuel, _, hinv => by
    have hi0 : i = 0 := Nat.le_zero.mp hfuel
    subst hi0
    intro j hj0 hjlen
    exact hinv.1 j hj0 hjlen (by omega)
  | fuel + 1, a, i, hfuel, hilen, hinv => by
    rw [bubbleUpF]
    split_ifs with h0 hle
    · subst h0
      intro j hj0 hjlen
      exact hinv.1 j hj0 hjlen (by omega)
    · intro j hj0 hjlen
      rcases eq_or_ne j i with rfl | hji
      · exact hle
      · exact hinv.1 j hj0 hjlen hji
    · have hi0 : 0 < i := Nat.pos_of_ne_zero h0
      have hpi : (i - 1) / 2 < i := by omega
      exact bubbleUpF_isMinHeap fuel _ _ (by omega)
        (by rw [lswap_length]; omega)
        (upInv_step a i hilen hi0 (lt_of_not_le hle) hinv)

theorem bubbleUpF_perm :
    ∀ (fuel : ℕ) (a : List TopItem) (i : ℕ), i < a.length →
      (bubbleUpF fuel a i).Perm a
  | 0, _, _, _ => List.Perm.refl _
  | fuel + 1, a, i, hilen => by
    rw [bubbleUpF]
    split_ifs with h0 hle
    · exact List.Perm.refl _
    · exact List.Perm.refl _
    · have hi0 : 0 < i := Nat.pos_of_ne_zero h0
      have hplen : (i - 1) / 2 < a.length := by omega
      exact List.Perm.trans
        (bubbleUpF_perm fuel _ _ (by rw [lswap_length]; omega))
        (lswap_perm a hplen hilen)

theorem upInv_push (a : List TopItem) (x : TopItem) (ha : IsMinHeap a) :
    UpInv (a ++ [x]) a.length := by
  constructor
  · intro j hj0 hjlen hji
    have hjlen' : j < a.length := by
      simp only [List.length_append, List.length_singleton] at hjlen
      omega
    have hpar : (j - 1) / 2 < a.length := by omega
    rw [hget, hget, List.getD_append _ _ _ _ hjlen', List.getD_append _ _ _ _ hpar]
    exact ha j hj0 hjlen'
  · intro j hj0 hjlen hjpar hipos
    simp only [List.length_append, List.length_singleton] at hjlen
    omega

theorem heapPush_isMinHeap (a : List TopItem) (x : TopItem) (ha : IsMinHeap a) :
    IsMinHeap (heapPush a x) :=
  bubbleUpF_isMinHeap a.length (a ++ [x]) a.length le_rfl (by simp)
    (upInv_push a x ha)

theorem heapPush_perm (a : List TopItem) (x : TopItem) :
    (heapPush a x).Perm (x :: a) :=
  List.Perm.trans (bubbleUpF_perm a.length (a ++ [x]) a.length (by simp))
    (List.perm_append_singleton x a)

/-! ### `bubbleDown` restores the heap invariant after a pop -/

theorem bdTarget_stop (a : List TopItem) (i : ℕ) (h : bdTarget a i = i) :
    ∀ c, (c = 2 * i + 1 ∨ c = 2 * i + 2) → c < a.length →
      (hget a i).score ≤ (hget a c).score := by
  intro c hc hclen
  unfold bdTarget bdTarget1 at h
  split_ifs at h with h1 h2 h2
  · omega
  · omega
  · omega
  · push_neg at h1 h2
    rcases hc with rfl | rfl
    · exact h1 hclen
    · exact h2 hclen

theorem bdTarget_go (a : List TopItem) (i : ℕ) (h : bdTarget a i ≠ i) :
    (bdTarget a i = 2 * i + 1 ∨ bdTarget a i = 2 * i + 2) ∧
    (hget a (bdTarget a i)).score < (hget a i).score ∧
    (∀ c, (c = 2 * i + 1 ∨ c = 2 * i + 2) → c < a.length → c ≠ bdTarget a i →
      (hget a (bdTarget a i)).score ≤ (hget a c).score) := by
  unfold bdTarget bdTarget1 at h ⊢
  split_ifs at h ⊢ with h1 h2 h2
  · -- left child beats parent, right child beats left child
    refine ⟨Or.inr rfl, lt_trans h2.2 h1.2, ?_⟩
    intro c hc hclen hcne
    have : c = 2 * i + 1 := by omega
    subst this
    exact le_of_lt h2.2
  · -- only the left child wins
    refine ⟨Or.inl rfl, h1.2, ?_⟩
    intro c hc hclen hcne
    have : c = 2 * i + 2 := by omega
    subst this
    push_neg at h2
    exact h2 hclen
  · -- right child beats parent directly
    refine ⟨Or.inr rfl, h2.2, ?_⟩
    intro c hc hclen hcne
    have : c = 2 * i + 1 := by omega
    subst this
    push_neg at h1
    exact le_trans (le_of_lt h2.2) (h1 hclen)
  · omega

/-- The invariant of the `bubbleDown` loop: the heap property may fail only
between `i` and its children, and the children of `i` already dominate the
parent of `i`. -/
def DownInv (a : List TopItem) (i : ℕ) : Prop :=
  (∀ j, 0 < j → j < a.length → (j - 1) / 2 ≠ i →
    (hget a ((j - 1) / 2)).score ≤ (hget a j).score) ∧
  (∀ j, 0 < j → j < a.length → (j - 1) / 2 = i → 0 < i →
    (hget a ((i - 1) / 2)).score ≤ (hget a j).score)

theorem downInv_step (a : List TopItem) (i : ℕ) (ht : bdTarget a i ≠ i)
    (hinv : DownInv a i) : DownInv (lswap a (bdTarget a i) i) (bdTarget a i) := by
  obtain ⟨hit, htlen⟩ := bdTarget_bounds a i ht
  have hilen : i < a.length := lt_trans hit htlen
  obtain ⟨htchild, hlt, hsib⟩ := bdTarget_go a i ht
  set t := bdTarget a i with htdef
  have hpart : (t - 1) / 2 = i := by omega
  have e1 : hget (lswap a t i) t = hget a i := hget_lswap_fst a htlen hilen
  have e2 : hget (lswap a t i) i = hget a t := hget_lswap_snd a t hilen
  have elen : (lswap a t i).length = a.length := lswap_length a t i
  constructor
  · intro j hj0 hjlen hjpar
    rw [elen] at hjlen
    rcases eq_or_ne j t with rfl | hjt
    · rw [hpart, e2, e1]
      exact le_of_lt hlt
    · rcases eq_or_ne j i with rfl | hji
      · have hi0 : 0 < j := hj0
        have hq1 : (j - 1) / 2 ≠ t := by omega
        have hq2 : (j - 1) / 2 ≠ j := by omega
        rw [e2, hget_lswap_other a hq1 hq2]
        exact hinv.2 t (by omega) htlen hpart hi0
      · have ej : hget (lswap a t i) j = hget a j := hget_lswap_other a hjt hji
        rw [ej]
        rcases eq_or_ne ((j - 1) / 2) i with hpar | hpar
        · have hchild : j = 2 * i + 1 ∨ j = 2 * i + 2 := by omega
          rw [hpar, e2]
          exact hsib j hchild hjlen hjt
        · rw [hget_lswap_other a hjpar hpar]
          exact hinv.1 j hj0 hjlen hpar
  · intro j hj0 hjlen hjpar ht0
    rw [elen] at hjlen
    rw [hpart, e2]
    have hjgt : t < j := by omega
    have hji : j ≠ i := by omega
    have hjt : j ≠ t := by omega
    rw [hget_lswap_other a hjt hji]
    exact hjpar ▸ hinv.1 j hj0 hjlen (by omega)

theorem bubbleDownF_isMinHeap :
    ∀ (fuel : ℕ) (a : List TopItem) (i : ℕ), a.length - i ≤ fuel → DownInv a i →
      IsMinHeap (bubbleDownF fuel a i)
  | 0, a, i, hfuel, hinv => by
    rw [bubbleDownF]
    intro j hj0 hjlen
    rcases eq_or_ne ((j - 1) / 2) i with hpar | hpar
    · omega
    · exact hinv.1 j hj0 hjlen hpar
  | fuel + 1, a, i, hfuel, hinv => by
    rw [bubbleDownF]
    split_ifs with hstop
    · intro j hj0 hjlen
      rcases eq_or_ne ((j - 1) / 2) i with hpar | hpar
      · have hchild : j = 2 * i + 1 ∨ j = 2 * i + 2 := by omega
        rw [hpar]
        exact bdTarget_stop a i hstop j hchild hjlen
      · exact hinv.1 j hj0 hjlen hpar
    · have hb := bdTarget_bounds a i hstop
      exact bubbleDownF_isMinHeap fuel _ _ (by rw [lswap_length]; omega)
        (downInv_step a i hstop hinv)

theorem bubbleDownF_perm :
    ∀ (fuel : ℕ) (a : List TopItem) (i : ℕ), (bubbleDownF fuel a i).Perm a
  | 0, _, _ => List.Perm.refl _
  | fuel + 1, a, i => by
    rw [bubbleDownF]
    split_ifs with hstop
    · exact List.Perm.refl _
    · have hb := bdTarget_bounds a i hstop
      exact List.Perm.trans (bubbleDownF_perm fuel _ _)
        (lswap_perm a hb.2 (lt_trans hb.1 hb.2))

/-! ### `heapPop` -/

theorem heapPop_fst (a : List TopItem) (h : a ≠ []) :
    (heapPop a).1 = some (hget a 0) := by
  match a with
  | top :: rest =>
    simp only [heapPop]
    split_ifs <;> simp [hget]

theorem hget_dropLast (a : List TopItem) {k : ℕ} (hk : k < a.length - 1) :
    hget a.dropLast k = hget a k := by
  rw [hget, hget, List.getD_eq_getElem?_getD, List.getD_eq_getElem?_getD,
    List.getElem?_dropLast, if_pos hk]

theorem hget_set_ne (l : List TopItem) (x : TopItem) {i k : ℕ} (h : i ≠ k) :
    hget (l.set i x) k = hget l k := by
  rw [hget, hget, List.getD_eq_getElem?_getD, List.getD_eq_getElem?_getD,
    List.getElem?_set_ne h]

theorem heapPop_isMinHeap (a : List TopItem) (ha : IsMinHeap a) :
    IsMinHeap (heapPop a).2 := by
  match a with
  | [] => exact isMinHeap_nil
  | top :: rest =>
    simp only [heapPop]
    split_ifs with hemp
    · exact isMinHeap_nil
    · set body := (top :: rest).dropLast with hbody
      set last := (top :: rest).getLastD default with hlast
      have hblen : (body.set 0 last).length = body.length := by simp
      apply bubbleDownF_isMinHeap _ _ 0 (by rw [hblen]; omega)
      constructor
      · intro j hj0 hjlen hpar
        have hjb : j < body.length := by rw [hblen] at hjlen; exact hjlen
        have hjb' : j < (top :: rest).length - 1 := by
          simpa [hbody, List.length_dropLast] using hjb
        have hparb : (j - 1) / 2 < (top :: rest).length - 1 := by omega
        rw [hget_set_ne _ _ (Ne.symm hpar), hget_set_ne _ _ (by omega : (0 : ℕ) ≠ j),
          hbody, hget_dropLast _ hparb, hget_dropLast _ hjb']
        exact ha j hj0 (by omega)
      · intro j hj0 hjlen hpar h0
        omega

theorem heapPop_perm (a : List TopItem) (h : a ≠ []) :
    (hget a 0 :: (heapPop a).2).Perm a := by
  match a with
  | top :: rest =>
    have hh : hget (top :: rest) 0 = top := rfl
    simp only [heapPop]
    split_ifs with hemp
    · have hrest : rest = [] := by
        have := congrArg List.length (List.isEmpty_iff.mp hemp)
        simp [List.length_dropLast] at this
        exact this
      subst hrest
      exact List.Perm.refl _
    · have hrest : rest ≠ [] := by
        intro hr
        subst hr
        simp at hemp
      have hbody : (top :: rest).dropLast = top :: rest.dropLast := by
        cases rest with
        | nil => exact absurd rfl hrest
        | cons r rs => rfl
      have hlast : (top :: rest).getLastD default = rest.getLast hrest := by
        rw [List.getLastD_eq_getLast?, List.getLast?_eq_getLast _ (by simp),
          List.getLast_cons hrest]
        rfl
      rw [hh, hbody, hlast]
      have hset : ((top :: rest.dropLast).set 0 (rest.getLast hrest)) =
          rest.getLast hrest :: rest.dropLast := rfl
      rw [hset]
      refine List.Perm.trans (List.Perm.cons top (bubbleDownF_perm _ _ _)) ?_
      refine List.Perm.cons top ?_
      refine List.Perm.trans (List.perm_append_singleton _ _).symm ?_
      rw [List.dropLast_append_getLast hrest]

/-! ### Correctness of the bounded Top-K scan -/

theorem hget_zero_mem (a : List TopItem) (h : a ≠ []) : hget a 0 ∈ a := by
  match a with
  | top :: rest => exact List.mem_cons_self _ _

theorem isMinHeap_root_le_mem (a : List TopItem) (ha : IsMinHeap a) (s : TopItem)
    (hs : s ∈ a) : (hget a 0).score ≤ s.score := by
  obtain ⟨j, hj, rfl⟩ := List.getElem_of_mem hs
  rw [← hget_eq_getElem a hj]
  exact isMinHeap_root_le a ha j hj

theorem ofList_append_singleton (l : List TopItem) (x : TopItem) :
    Multiset.ofList (l ++ [x]) = x ::ₘ Multiset.ofList l := by
  rw [Multiset.cons_coe]
  exact Multiset.coe_eq_coe.mpr (List.perm_append_singleton x l)

/-- Characterization of a correct bounded Top-K selection `S` out of the
scanned candidates `seen`: right size, drawn from `seen` (as a multiset),
and every candidate left out scores no higher than every candidate kept. -/
def SelOut (K : ℕ) (seen S : List TopItem) : Prop :=
  S.length = min K seen.length ∧
  ∃ dropped : Multiset TopItem,
    Multiset.ofList seen = Multiset.ofList S + dropped ∧
    ∀ y ∈ dropped, ∀ s ∈ S, y.score ≤ s.score

theorem SelOut.perm {K : ℕ} {seen S S' : List TopItem} (h : SelOut K seen S)
    (hp : S.Perm S') : SelOut K seen S' := by
  obtain ⟨hlen, dropped, hml, hbound⟩ := h
  refine ⟨hp.length_eq ▸ hlen, dropped, ?_, ?_⟩
  · rw [← Multiset.coe_eq_coe.mpr hp]
    exact hml
  · intro y hy s hs
    exact hbound y hy s (hp.mem_iff.mpr hs)

theorem selOut_nil (K : ℕ) : SelOut K [] [] :=
  ⟨by simp, 0, by simp, by simp⟩

theorem topKStep_preserve (K : ℕ) (hK : 1 ≤ K) (seen h : List TopItem) (x : TopItem)
    (hheap : IsMinHeap h) (hsel : SelOut K seen h) :
    IsMinHeap (topKStep K h x) ∧ SelOut K (seen ++ [x]) (topKStep K h x) := by
  obtain ⟨hlen, dropped, hml, hbound⟩ := hsel
  have hcard := congrArg Multiset.card hml
  rw [Multiset.card_add, Multiset.coe_card, Multiset.coe_card] at hcard
  unfold topKStep
  split_ifs with hfull hbeat
  · -- heap not yet full: push, nothing has ever been dropped
    refine ⟨heapPush_isMinHeap h x hheap, ?_, 0, ?_, by simp⟩
    · rw [(heapPush_perm h x).length_eq]
      simp only [List.length_cons, List.length_append, List.length_singleton,
        List.length_nil]
      omega
    · have hdrop0 : dropped = 0 := by
        rw [← Multiset.card_eq_zero]
        omega
      subst hdrop0
      rw [add_zero] at hml
      rw [ofList_append_singleton, Multiset.coe_eq_coe.mpr (heapPush_perm h x),
        ← Multiset.cons_coe, add_zero, hml]
  · -- full and the candidate beats the root: evict the root, push
    have hlenK : h.length = K := by omega
    have hne : h ≠ [] := by
      intro hnil
      rw [hnil] at hlenK
      simp at hlenK
      omega
    have hpop := heapPop_perm h hne
    have hpush := heapPush_perm (heapPop h).2 x
    have hroot : Multiset.ofList h = hget h 0 ::ₘ Multiset.ofList (heapPop h).2 := by
      rw [Multiset.cons_coe]
      exact (Multiset.coe_eq_coe.mpr hpop).symm
    refine ⟨heapPush_isMinHeap _ x (heapPop_isMinHeap h hheap), ?_, hget h 0 ::ₘ dropped,
      ?_, ?_⟩
    · rw [hpush.length_eq]
      have := hpop.length_eq
      simp only [List.length_cons, List.length_append, List.length_singleton] at this ⊢
      omega
    · rw [ofList_append_singleton, Multiset.coe_eq_coe.mpr hpush, ← Multiset.cons_coe,
        hml, hroot]
      simp only [← Multiset.singleton_add]
      abel
    · intro y hy s hs
      have hsx : s = x ∨ s ∈ (heapPop h).2 :=
        List.mem_cons.mp (hpush.mem_iff.mp hs)
      have hmemh : ∀ z ∈ (heapPop h).2, z ∈ h := by
        intro z hz
        exact hpop.mem_iff.mp (List.mem_cons_of_mem _ hz)
      have hrx : (hget h 0).score < x.score := hbeat
      rcases Multiset.mem_cons.mp hy with rfl | hy'
      · rcases hsx with rfl | hs'
        · exact le_of_lt hrx
        · exact isMinHeap_root_le_mem h hheap s (hmemh s hs')
      · rcases hsx with rfl | hs'
        · exact le_trans (hbound y hy' _ (hget_zero_mem h hne)) (le_of_lt hrx)
        · exact hbound y hy' s (hmemh s hs')
  · -- full and the candidate does not beat the root: drop the candidate
    push_neg at hbeat
    have hlenK : h.length = K := by omega
    have hne : h ≠ [] := by
      intro hnil
      rw [hnil] at hlenK
      simp at hlenK
      omega
    refine ⟨hheap, ?_, x ::ₘ dropped, ?_, ?_⟩
    · simp only [List.length_append, List.length_singleton]
      omega
    · rw [ofList_append_singleton, hml]
      simp only [← Multiset.singleton_add]
      abel
    · intro y hy s hs
      rcases Multiset.mem_cons.mp hy with rfl | hy'
      · exact le_trans hbeat (isMinHeap_root_le_mem h hheap s hs)
      · exact hbound y hy' s hs

theorem topKFold_selOut (K : ℕ) (hK : 1 ≤ K) :
    ∀ (xs seen h : List TopItem), IsMinHeap h → SelOut K seen h →
      IsMinHeap (xs.foldl (topKStep K) h) ∧
        SelOut K (seen ++ xs) (xs.foldl (topKStep K) h)
  | [], seen, h, hheap, hsel => by simpa using ⟨hheap, hsel⟩
  | x :: xs, seen, h, hheap, hsel => by
    rw [List.foldl_cons]
    have hstep := topKStep_preserve K hK seen h x hheap hsel
    have hrec := topKFold_selOut K hK xs (seen ++ [x]) _ hstep.1 hstep.2
    rwa [List.append_assoc, List.singleton_append] at hrec

theorem selOut_sortDesc_take (K : ℕ) (xs : List TopItem) :
    SelOut K xs ((sortDesc xs).take K) := by
  have hperm : (sortDesc xs).Perm xs := List.perm_insertionSort rdesc xs
  have hsorted : List.Sorted rdesc (sortDesc xs) := List.sorted_insertionSort rdesc xs
  refine ⟨?_, Multiset.ofList ((sortDesc xs).drop K), ?_, ?_⟩
  · rw [List.length_take, sortDesc, List.length_insertionSort]
  · rw [← Multiset.coe_eq_coe.mpr hperm, Multiset.coe_add,
      List.take_append_drop K (sortDesc xs)]
  · intro y hy s hs
    rw [Multiset.mem_coe] at hy
    have hsplit := List.pairwise_append.mp
      (by rw [List.take_append_drop K (sortDesc xs)]; exact hsorted)
    exact hsplit.2.2 s hs y hy

theorem selOut_unique (K : ℕ) (xs S₁ S₂ : List TopItem)
    (hd : xs.Pairwise fun a b => a.score ≠ b.score)
    (h1 : SelOut K xs S₁) (h2 : SelOut K xs S₂) : S₁.Perm S₂ := by
  obtain ⟨hlen1, d1, e1, b1⟩ := h1
  obtain ⟨hlen2, d2, e2, b2⟩ := h2
  have hnodup : xs.Nodup := hd.imp fun hne heq => hne (congrArg TopItem.score heq)
  have hcount : ∀ z : TopItem, List.count z xs ≤ 1 :=
    List.nodup_iff_count_le_one.mp hnodup
  rw [← Multiset.coe_eq_coe]
  by_contra hne
  have hcard : Multiset.card (Multiset.ofList S₁) = Multiset.card (Multiset.ofList S₂) := by
    rw [Multiset.coe_card, Multiset.coe_card, hlen1, hlen2]
  -- there is an item over-represented in S₁ and one over-represented in S₂
  have hex1 : ∃ a, Multiset.count a (Multiset.ofList S₂) <
      Multiset.count a (Multiset.ofList S₁) := by
    by_contra hno
    push_neg at hno
    exact hne (Multiset.eq_of_le_of_card_le (Multiset.le_iff_count.mpr hno) hcard.ge)
  have hex2 : ∃ b, Multiset.count b (Multiset.ofList S₁) <
      Multiset.count b (Multiset.ofList S₂) := by
    by_contra hno
    push_neg at hno
    exact hne (Multiset.eq_of_le_of_card_le (Multiset.le_iff_count.mpr hno) hcard.le).symm
  obtain ⟨a, ha⟩ := hex1
  obtain ⟨b, hb⟩ := hex2
  have hxa1 := congrArg (Multiset.count a) e1
  rw [Multiset.coe_count, Multiset.count_add] at hxa1
  have hxa2 := congrArg (Multiset.count a) e2
  rw [Multiset.coe_count, Multiset.count_add] at hxa2
  have hxb1 := congrArg (Multiset.count b) e1
  rw [Multiset.coe_count, Multiset.count_add] at hxb1
  have hxb2 := congrArg (Multiset.count b) e2
  rw [Multiset.coe_count, Multiset.count_add] at hxb2
  have hca := hcount a
  have hcb := hcount b
  have haS1 : a ∈ S₁ := by
    rw [← Multiset.mem_coe, ← Multiset.count_pos]
    omega
  have hbS2 : b ∈ S₂ := by
    rw [← Multiset.mem_coe, ← Multiset.count_pos]
    omega
  have had2 : a ∈ d2 := by
    rw [← Multiset.count_pos]
    omega
  have hbd1 : b ∈ d1 := by
    rw [← Multiset.count_pos]
    omega
  have hab : a.score ≤ b.score := b2 a had2 b hbS2
  have hba : b.score ≤ a.score := b1 b hbd1 a haS1
  have haxs : a ∈ xs := by
    rw [← List.count_pos_iff]
    omega
  have hbxs : b ∈ xs := by
    rw [← List.count_pos_iff]
    omega
  have habne : a ≠ b := by
    intro heq
    subst heq
    omega
  exact hd.forall (fun _ _ hne' => hne'.symm) haxs hbxs habne (le_antisymm hab hba)

theorem pairwise_of_subperm {R : TopItem → TopItem → Prop}
    (hsym : ∀ {x y : TopItem}, R x y → R y x) {l₁ l₂ : List TopItem}
    (h : l₁.Subperm l₂) (hp : l₂.Pairwise R) : l₁.Pairwise R := by
  obtain ⟨l, hlp, hls⟩ := List.subperm_iff.mp h
  exact List.Pairwise.sublist hls (hp.perm hlp.symm fun h' => hsym h')

theorem sorted_strict_eq (l₁ l₂ : List TopItem) (hp : l₁.Perm l₂)
    (hs₁ : List.Sorted rdesc l₁) (hs₂ : List.Sorted rdesc l₂)
    (hd : l₁.Pairwise fun a b => a.score ≠ b.score) : l₁ = l₂ := by
  have hd₂ : l₂.Pairwise fun a b => a.score ≠ b.score :=
    hd.perm hp fun h => h.symm
  have hstrict₁ : List.Sorted rsdesc l₁ :=
    (List.Pairwise.and hs₁ hd).imp fun hab => lt_of_le_of_ne hab.1 hab.2.symm
  have hstrict₂ : List.Sorted rsdesc l₂ :=
    (List.Pairwise.and hs₂ hd₂).imp fun hab => lt_of_le_of_ne hab.1 hab.2.symm
  exact List.eq_of_perm_of_sorted hp hstrict₁ hstrict₂

theorem selOut_subperm {K : ℕ} {xs S : List TopItem} (h : SelOut K xs S) :
    S.Subperm xs := by
  obtain ⟨-, dropped, hml, -⟩ := h
  rw [← Multiset.coe_le, hml]
  exact Multiset.le_add_right _ _

/-- With pairwise-distinct candidate scores, the heap scan returns exactly
the stable-sort brute-force prefix. -/
theorem heapSelect_eq (K : ℕ) (hK : 1 ≤ K) (xs : List TopItem)
    (hd : xs.Pairwise fun a b => a.score ≠ b.score) :
    sortDesc (xs.foldl (topKStep K) []) = (sortDesc xs).take K := by
  obtain ⟨hheap, hsel⟩ := topKFold_selOut K hK xs [] [] isMinHeap_nil (selOut_nil K)
  rw [List.nil_append] at hsel
  have hsel' : SelOut K xs (sortDesc (xs.foldl (topKStep K) [])) :=
    hsel.perm (List.perm_insertionSort rdesc _).symm
  have hbr : SelOut K xs ((sortDesc xs).take K) := selOut_sortDesc_take K xs
  have hperm := selOut_unique K xs _ _ hd hsel' hbr
  have hdxs : (sortDesc xs).Pairwise fun a b => a.score ≠ b.score :=
    hd.perm (List.perm_insertionSort rdesc xs).symm fun h => h.symm
  refine sorted_strict_eq _ _ hperm (List.sorted_insertionSort rdesc _)
    (List.Pairwise.sublist (List.take_sublist K _) (List.sorted_insertionSort rdesc xs))
    ?_
  exact pairwise_of_subperm (fun h => h.symm) (selOut_subperm hsel') hd

/-! ### Correctness of the sorted-list variant `topNFromScores` -/

theorem sorted_getLast_le (top : List TopItem) (h : top ≠ [])
    (hs : List.Sorted rdesc top) :
    ∀ s ∈ top, (top.getLastD default).score ≤ s.score := by
  intro s hmem
  have hL : top.getLastD default = top.getLast h := by
    rw [List.getLastD_eq_getLast?, List.getLast?_eq_getLast _ h]
    rfl
  have hs2 : List.Sorted rdesc (top.dropLast ++ [top.getLast h]) := by
    rw [List.dropLast_append_getLast h]
    exact hs
  have hmem2 : s ∈ top.dropLast ++ [top.getLast h] := by
    rw [List.dropLast_append_getLast h]
    exact hmem
  rw [hL]
  rcases List.mem_append.mp hmem2 with hm | hm
  · exact (List.pairwise_append.mp hs2).2.2 s hm _ (List.mem_singleton.mpr rfl)
  · rw [List.mem_singleton.mp hm]

theorem topNStep_preserve (N : ℕ) (hN : 1 ≤ N) (seen top : List TopItem) (x : TopItem)
    (hsort : List.Sorted rdesc top) (hsel : SelOut N seen top) :
    List.Sorted rdesc (topNStep N top x) ∧ SelOut N (seen ++ [x]) (topNStep N top x) := by
  obtain ⟨hlen, dropped, hml, hbound⟩ := hsel
  have hcard := congrArg Multiset.card hml
  rw [Multiset.card_add, Multiset.coe_card, Multiset.coe_card] at hcard
  unfold topNStep
  split_ifs with hfull hbeat
  · -- not full: push and re-sort; nothing has ever been dropped
    refine ⟨List.sorted_insertionSort rdesc _, ?_, 0, ?_, by simp⟩
    · rw [sortDesc, (List.perm_insertionSort rdesc _).length_eq]
      simp only [List.length_append, List.length_singleton, List.length_nil,
        List.length_cons]
      omega
    · have hdrop0 : dropped = 0 := by
        rw [← Multiset.card_eq_zero]
        omega
      subst hdrop0
      rw [add_zero] at hml
      rw [ofList_append_singleton, add_zero, sortDesc,
        Multiset.coe_eq_coe.mpr (List.perm_insertionSort rdesc _),
        ofList_append_singleton, hml]
  · -- full and the candidate beats the current minimum (the last element)
    have hlenN : top.length = N := by omega
    have hne : top ≠ [] := by
      intro hnil
      rw [hnil] at hlenN
      simp at hlenN
      omega
    have hLmem : top.getLastD default ∈ top := by
      have hL : top.getLastD default = top.getLast hne := by
        rw [List.getLastD_eq_getLast?, List.getLast?_eq_getLast _ hne]
        rfl
      rw [hL]
      exact List.getLast_mem hne
    have htopsplit : Multiset.ofList top =
        top.getLastD default ::ₘ Multiset.ofList top.dropLast := by
      have hL : top.getLastD default = top.getLast hne := by
        rw [List.getLastD_eq_getLast?, List.getLast?_eq_getLast _ hne]
        rfl
      rw [hL, ← ofList_append_singleton, List.dropLast_append_getLast hne]
    have hperm := List.perm_insertionSort rdesc (top.dropLast ++ [x])
    refine ⟨List.sorted_insertionSort rdesc _, ?_, top.getLastD default ::ₘ dropped,
      ?_, ?_⟩
    · rw [sortDesc, hperm.length_eq]
      simp only [List.length_append, List.length_singleton, List.length_dropLast,
        List.length_nil, List.length_cons]
      omega
    · rw [ofList_append_singleton, sortDesc, Multiset.coe_eq_coe.mpr hperm,
        ofList_append_singleton, hml, htopsplit]
      simp only [← Multiset.singleton_add]
      abel
    · intro y hy s hs
      have hsx : s ∈ top.dropLast ∨ s = x := by
        rcases List.mem_append.mp (hperm.mem_iff.mp hs) with hs' | hs'
        · exact Or.inl hs'
        · exact Or.inr (List.mem_singleton.mp hs')
      have msmall := sorted_getLast_le top hne hsort
      have hdmem : ∀ z ∈ top.dropLast, z ∈ top := fun z hz =>
        (List.dropLast_sublist top).subset hz
      rcases Multiset.mem_cons.mp hy with rfl | hy'
      · rcases hsx with hs' | rfl
        · exact msmall s (hdmem s hs')
        · exact le_of_lt hbeat
      · rcases hsx with hs' | rfl
        · exact hbound y hy' s (hdmem s hs')
        · exact le_trans (hbound y hy' _ hLmem) (le_of_lt hbeat)
  · -- full and the candidate does not beat the minimum: drop the candidate
    push_neg at hbeat
    have hlenN : top.length = N := by omega
    have hne : top ≠ [] := by
      intro hnil
      rw [hnil] at hlenN
      simp at hlenN
      omega
    refine ⟨hsort, ?_, x ::ₘ dropped, ?_, ?_⟩
    · simp only [List.length_append, List.length_singleton]
      omega
    · rw [ofList_append_singleton, hml]
      simp only [← Multiset.singleton_add]
      abel
    · intro y hy s hs
      rcases Multiset.mem_cons.mp hy with rfl | hy'
      · exact le_trans hbeat (sorted_getLast_le top hne hsort s hs)
      · exact hbound y hy' s hs

theorem topNFold_selOut (N : ℕ) (hN : 1 ≤ N) :
    ∀ (xs seen top : List TopItem), List.Sorted rdesc top → SelOut N seen top →
      List.Sorted rdesc (xs.foldl (topNStep N) top) ∧
        SelOut N (seen ++ xs) (xs.foldl (topNStep N) top)
  | [], seen, top, hsort, hsel => by simpa using ⟨hsort, hsel⟩
  | x :: xs, seen, top, hsort, hsel => by
    rw [List.foldl_cons]
    have hstep := topNStep_preserve N hN seen top x hsort hsel
    have hrec := topNFold_selOut N hN xs (seen ++ [x]) _ hstep.1 hstep.2
    rwa [List.append_assoc, List.singleton_append] at hrec

/-- With pairwise-distinct candidate scores, the sorted-list scan returns
exactly the stable-sort brute-force prefix. -/
theorem listSelect_eq (N : ℕ) (hN : 1 ≤ N) (xs : List TopItem)
    (hd : xs.Pairwise fun a b => a.score ≠ b.score) :
    xs.foldl (topNStep N) [] = (sortDesc xs).take N := by
  obtain ⟨hsort, hsel⟩ := topNFold_selOut N hN xs [] [] List.sorted_nil (selOut_nil N)
  rw [List.nil_append] at hsel
  have hbr : SelOut N xs ((sortDesc xs).take N) := selOut_sortDesc_take N xs
  have hperm := selOut_unique N xs _ _ hd hsel hbr
  refine sorted_strict_eq _ _ hperm hsort
    (List.Pairwise.sublist (List.take_sublist N _) (List.sorted_insertionSort rdesc xs))
    ?_
  exact pairwise_of_subperm (fun h => h.symm) (selOut_subperm hsel) hd

/-! ### Reducing the row scan with exclusion test to a fold over the
non-excluded candidates -/

theorem foldl_guard {γ : Type} (exclude : Finset ℤ) (f : γ → TopItem → γ)
    (l : List TopItem) :
    ∀ init : γ,
      l.foldl (fun acc t => if t.movieId ∈ exclude then acc else f acc t) init =
        (l.filter fun t => decide (t.movieId ∉ exclude)).foldl f init := by
  induction l with
  | nil => intro init; rfl
  | cons t l ih =>
    intro init
    by_cases hmem : t.movieId ∈ exclude <;>
      simp [List.filter_cons, hmem, ih]

theorem topK_eq_fold (M : Model) (scores : List ℚ) (K : ℕ) (exclude : Finset ℤ) :
    topKFromScores M scores K exclude =
      sortDesc ((nonExcluded M scores exclude).foldl (topKStep K) []) := by
  rw [topKFromScores, nonExcluded, candidates]
  congr 1
  rw [← foldl_guard, List.foldl_map]

theorem topN_eq_fold (M : Model) (scores : List ℚ) (N : ℕ) (exclude : Finset ℤ) :
    topNFromScores M scores N exclude =
      (nonExcluded M scores exclude).foldl (topNStep N) [] := by
  rw [topNFromScores, nonExcluded, candidates]
  rw [← foldl_guard, List.foldl_map]

theorem heap_variant_correct (M : Model) (scores : List ℚ) (K : ℕ)
    (exclude : Finset ℤ) (hK : 1 ≤ K)
    (hd : (nonExcluded M scores exclude).Pairwise fun a b => a.score ≠ b.score) :
    topKFromScores M scores K exclude = bruteForceTopK M scores K exclude := by
  rw [topK_eq_fold, bruteForceTopK]
  exact heapSelect_eq K hK _ hd

theorem list_variant_correct (M : Model) (scores : List ℚ) (N : ℕ)
    (exclude : Finset ℤ) (hN : 1 ≤ N)
    (hd : (nonExcluded M scores exclude).Pairwise fun a b => a.score ≠ b.score) :
    topNFromScores M scores N exclude = bruteForceTopK M scores N exclude := by
  rw [topN_eq_fold, bruteForceTopK]
  exact listSelect_eq N hN _ hd

/-! ### Membership facts for the selectors (exclusion invariant) -/

theorem heapPop_mem (h : List TopItem) : ∀ e ∈ (heapPop h).2, e ∈ h := by
  match h with
  | [] => intro e he; simp [heapPop] at he
  | top :: rest =>
    intro e he
    exact (heapPop_perm (top :: rest) (by simp)).mem_iff.mp (List.mem_cons_of_mem _ he)

theorem topKStep_mem (K : ℕ) (h : List TopItem) (x e : TopItem)
    (he : e ∈ topKStep K h x) : e = x ∨ e ∈ h := by
  unfold topKStep at he
  split_ifs at he with hfull hbeat
  · exact List.mem_cons.mp ((heapPush_perm h x).mem_iff.mp he)
  · rcases List.mem_cons.mp ((heapPush_perm _ x).mem_iff.mp he) with he' | he'
    · exact Or.inl he'
    · exact Or.inr (heapPop_mem h e he')
  · exact Or.inr he

theorem topKFold_mem (K : ℕ) :
    ∀ (xs h : List TopItem) (e : TopItem), e ∈ xs.foldl (topKStep K) h →
      e ∈ xs ∨ e ∈ h
  | [], h, e, he => Or.inr he
  | x :: xs, h, e, he => by
    rw [List.foldl_cons] at he
    rcases topKFold_mem K xs _ e he with he' | he'
    · exact Or.inl (List.mem_cons_of_mem _ he')
    · rcases topKStep_mem K h x e he' with rfl | he''
      · exact Or.inl (List.mem_cons_self _ _)
      · exact Or.inr he''

theorem topNStep_mem (N : ℕ) (top : List TopItem) (x e : TopItem)
    (he : e ∈ topNStep N top x) : e = x ∨ e ∈ top := by
  unfold topNStep at he
  split_ifs at he with hfull hbeat
  · rcases List.mem_append.mp ((List.perm_insertionSort rdesc _).mem_iff.mp he) with
      he' | he'
    · exact Or.inr he'
    · exact Or.inl (List.mem_singleton.mp he')
  · rcases List.mem_append.mp ((List.perm_insertionSort rdesc _).mem_iff.mp he) with
      he' | he'
    · exact Or.inr ((List.dropLast_sublist top).subset he')
    · exact Or.inl (List.mem_singleton.mp he')
  · exact Or.inr he

theorem topNFold_mem (N : ℕ) :
    ∀ (xs top : List TopItem) (e : TopItem), e ∈ xs.foldl (topNStep N) top →
      e ∈ xs ∨ e ∈ top
  | [], top, e, he => Or.inr he
  | x :: xs, top, e, he => by
    rw [List.foldl_cons] at he
    rcases topNFold_mem N xs _ e he with he' | he'
    · exact Or.inl (List.mem_cons_of_mem _ he')
    · rcases topNStep_mem N top x e he' with rfl | he''
      · exact Or.inl (List.mem_cons_self _ _)
      · exact Or.inr he''

theorem topKFromScores_not_excluded (M : Model) (scores : List ℚ) (K : ℕ)
    (exclude : Finset ℤ) :
    ∀ e ∈ topKFromScores M scores K exclude, e.movieId ∉ exclude := by
  intro e he
  rw [topK_eq_fold] at he
  have he' := (List.perm_insertionSort rdesc _).mem_iff.mp he
  rcases topKFold_mem K _ _ e he' with hmem | hmem
  · have := (List.mem_filter.mp hmem).2
    simpa using this
  · simp at hmem

theorem topNFromScores_not_excluded (M : Model) (scores : List ℚ) (N : ℕ)
    (exclude : Finset ℤ) :
    ∀ e ∈ topNFromScores M scores N exclude, e.movieId ∉ exclude := by
  intro e he
  rw [topN_eq_fold] at he
  rcases topNFold_mem N _ _ e he with hmem | hmem
  · have := (List.mem_filter.mp hmem).2
    simpa using this
  · simp at hmem

/-! ### Model Store index, Scorer and User Vector Builder -/

/-- `movieIdToIndex` as built by the load loop
`for i: movieIdToIndex.set(movieIds[i], i)`: the last write wins. -/
def movieIdToIndex (M : Model) (mid : ℤ) : Option ℕ :=
  ((M.movieIds.enum).reverse.find? (fun p => p.2 == mid)).map (·.1)

/-- `dotItemWithUser(itemIndex, userVec)`: a single left-to-right
accumulation over the `cols` dimension of row `itemIndex`. -/
def dotItemWithUser (M : Model) (itemIndex : ℕ) (userVec : List ℚ) : ℚ :=
  (List.range M.cols).foldl
    (fun s j =>
      s + M.itemFactors.getD (itemIndex * M.cols + j) 0 * userVec.getD j 0) 0

/-- A normalized rating record `{ movieId, rating }`. -/
structure RatingInput where
  movieId : ℤ
  rating  : ℚ
deriving DecidableEq

/-- One iteration of the `buildUserVector` loop over the ratings: the
accumulator vector `u` and the denominator. -/
def buildStep (M : Model) (acc : List ℚ × ℚ) (r : RatingInput) : List ℚ × ℚ :=
  match movieIdToIndex M r.movieId with
  | none => acc
  | some idx =>
    if r.rating - 3 = 0 then acc
    else
      ((List.range M.cols).map
          (fun j => acc.1.getD j 0 +
            (r.rating - 3) * M.itemFactors.getD (idx * M.cols + j) 0),
        acc.2 + |r.rating - 3|)

/-- The loop of `buildUserVector`: final accumulator vector and denominator
starting from the zero vector. -/
def buildAcc (M : Model) (ratings : List RatingInput) : List ℚ × ℚ :=
  ratings.foldl (buildStep M) (List.replicate M.cols 0, 0)

/-- `buildUserVector(ratings)`: divide by the denominator only when it is
positive. -/
def buildUserVector (M : Model) (ratings : List RatingInput) : List ℚ :=
  if 0 < (buildAcc M ratings).2 then
    (buildAcc M ratings).1.map (· / (buildAcc M ratings).2)
  else (buildAcc M ratings).1

/-- Modelled from the spec: the valid contributions of a rating list — the
item is present in the index and the centered weight `w = rating - 3` is
nonzero; each contribution is the `(index, w)` pair. -/
def validContribs (M : Model) (ratings : List RatingInput) : List (ℕ × ℚ) :=
  ratings.filterMap (fun r =>
    (movieIdToIndex M r.movieId).bind (fun idx =>
      if r.rating - 3 = 0 then none else some (idx, r.rating - 3)))

/-- Modelled from the spec: the accumulated denominator `sum |w|`. -/
def specDenom (M : Model) (ratings : List RatingInput) : ℚ :=
  ((validContribs M ratings).map (fun p => |p.2|)).sum

/-- Modelled from the spec: the user vector as a closed formula — the
weighted sum of item factor vectors divided by the denominator when it is
positive, and the zero vector of length `cols` otherwise. -/
def specUserVector (M : Model) (ratings : List RatingInput) : List ℚ :=
  if 0 < specDenom M ratings then
    (List.range M.cols).map (fun j =>
      ((validContribs M ratings).map
        (fun p => p.2 * M.itemFactors.getD (p.1 * M.cols + j) 0)).sum /
        specDenom M ratings)
  else List.replicate M.cols 0

/-! ### Enrichment Cache & Fetcher (`tmdbMovieFull`) -/

/-- The cached/returned metadata payload shape. -/
structure TmdbPayload where
  title : Option String
  poster_url : Option String
  backdrop_url : Option String
  overview : Option String
  year : Option ℤ
  director : Option String
  runtime : Option ℤ
  original_language : Option String
  genres : Option (List String)
deriving DecidableEq

/-- A crew entry of the provider response (the two fields the code reads). -/
structure CrewMember where
  job : Option String
  name : Option String
deriving DecidableEq

/-- The parsed JSON body `d` of a successful metadata response: every field
the code reads, each possibly absent; `genres` elements are modeled by their
`name` field (possibly absent). -/
structure TmdbRaw where
  title : Option String
  overview : Option String
  release_date : Option String
  runtime : Option ℤ
  original_language : Option String
  genres : Option (List (Option String))
  crew : List CrewMember
  poster_path : Option String
  backdrop_path : Option String
deriving DecidableEq

def TMDB_IMG : String := "https://image.tmdb.org/t/p"

/-- `Number(String(d.release_date).slice(0, 4))`, with exact integer parsing
of the 4-character prefix (an unparseable prefix, NaN in JS, is modeled as
no year). -/
def parseYear (s : String) : Option ℤ := (s.take 4).toInt?

/-- The `for (const c of crew)` loop: the first crew member whose `job`
equals `"Director"`, with `c?.name ?? null`. -/
def findDirector (crew : List CrewMember) : Option String :=
  match crew.find? (fun c => c.job == some "Director") with
  | none => none
  | some c => c.name

/-- Normalization of a successful response body into the payload shape. -/
def parseTmdb (d : TmdbRaw) : TmdbPayload where
  title := d.title
  overview := d.overview
  year :=
    match d.release_date with
    | none => none
    | some s => if s = "" then none else parseYear s
  runtime := d.runtime
  original_language := d.original_language
  genres := d.genres.map (fun l => (l.filterMap id).filter (fun s => !(s == "")))
  director := findDirector d.crew
  poster_url :=
    match d.poster_path with
    | none => none
    | some p => if p = "" then none else some (TMDB_IMG ++ "/w342" ++ p)
  backdrop_url :=
    match d.backdrop_path with
    | none => none
    | some p => if p = "" then none else some (TMDB_IMG ++ "/w780" ++ p)

/-- Outcome of one outbound `fetch` for a given external id. -/
inductive FetchOutcome
  | netError                -- the `fetch` promise rejects
  | notOk                   -- a response with `!r.ok`
  | malformedBody           -- `r.json()` rejects
  | success (d : TmdbRaw)   -- `r.ok` and a parsed JSON body
deriving DecidableEq

/-- The process-wide mutable state touched by the Fetcher: the `tmdbCache`
map (association list in insertion order) and the trace of outbound calls
issued. -/
structure FetchState where
  cache : List (ℤ × TmdbPayload)
  calls : List ℤ
deriving DecidableEq

def cacheLookup (cache : List (ℤ × TmdbPayload)) (tmdbId : ℤ) :
    Option TmdbPayload :=
  (cache.find? (fun p => p.1 == tmdbId)).map (·.2)

/-- `tmdbMovieFull(tmdbId)`. `hasKey` is whether `TMDB_API_KEY` is set; the
oracle gives each outbound call's outcome. `Except.error ()` models a
rejected promise propagating to the caller. -/
def tmdbMovieFull (hasKey : Bool) (oracle : ℤ → FetchOutcome) (s : FetchState)
    (tmdbId : ℤ) : Except Unit (Option TmdbPayload) × FetchState :=
  if !hasKey then (.ok none, s)
  else
    match cacheLookup s.cache tmdbId with
    | some payload => (.ok (some payload), s)
    | none =>
      let s1 : FetchState := { s with calls := s.calls ++ [tmdbId] }
      match oracle tmdbId with
      | .netError => (.error (), s1)
      | .notOk => (.ok none, s1)
      | .malformedBody => (.error (), s1)
      | .success d =>
        (.ok (some (parseTmdb d)),
          { s1 with cache := s1.cache ++ [(tmdbId, parseTmdb d)] })

/-! ### Ranking Service (`POST`) -/

/-- One entry of the response `recs` array. `tmdbId = none` models `null`;
an external id of `0` is reported as `some 0`. -/
structure RecEntry where
  rank : ℕ
  movieId : ℤ
  tmdbId : Option ℤ
  score : ℚ
  title : Option String
  poster_url : Option String
  backdrop_url : Option String
  overview : Option String
  year : Option ℤ
  director : Option String
  runtime : Option ℤ
  original_language : Option String
  genres : Option (List String)
deriving DecidableEq

/-- `Number(t.score.toFixed(6))`: rounding to 6 decimal places (modeled
with exact rational half-up rounding). -/
def round6 (q : ℚ) : ℚ := (Rat.floor (q * 1000000 + 1 / 2) : ℤ) / 1000000

/-- Assembly of one response entry from a pool item, its reported external
id and the fetched payload (`payload?.field ?? null` throughout). -/
def mkRecEntry (rank : ℕ) (t : TopItem) (tmdbId : Option ℤ)
    (payload : Option TmdbPayload) : RecEntry where
  rank := rank
  movieId := t.movieId
  tmdbId := tmdbId
  score := round6 t.score
  title := payload.bind (·.title)
  poster_url := payload.bind (·.poster_url)
  backdrop_url := payload.bind (·.backdrop_url)
  overview := payload.bind (·.overview)
  year := payload.bind (·.year)
  director := payload.bind (·.director)
  runtime := payload.bind (·.runtime)
  original_language := payload.bind (·.original_language)
  genres := payload.bind (·.genres)

/-- The body of the `mapWithLimit` callback for one head slot `idx`:
`movieIdToTmdb[String(t.movieId)] ?? null`, then a fetch only when the
mapped id is truthy (`0` is falsy in JS). -/
def enrichOne (hasKey : Bool) (oracle : ℤ → FetchOutcome) (M : Model)
    (s : FetchState) (idx : ℕ) (t : TopItem) : Except Unit RecEntry × FetchState :=
  match M.mid2tmdb t.movieId with
  | none => (.ok (mkRecEntry (idx + 1) t none none), s)
  | some n =>
    if n = 0 then (.ok (mkRecEntry (idx + 1) t (some n) none), s)
    else
      match tmdbMovieFull hasKey oracle s n with
      | (.error e, s1) => (.error e, s1)
      | (.ok payload, s1) => (.ok (mkRecEntry (idx + 1) t (some n) payload), s1)

/-- The head enrichment loop. In the source the calls run under a bounded
worker pool and each result is written back to its slot by index; the
sequential state-threaded model preserves exactly that slot assignment. A
single rejected call rejects the whole `Promise.all`, modeled by
`Except.error`. -/
def enrichHead (hasKey : Bool) (oracle : ℤ → FetchOutcome) (M : Model) :
    List TopItem → ℕ → FetchState → Except Unit (List RecEntry) × FetchState
  | [], _, s => (.ok [], s)
  | t :: ts, idx, s =>
    match enrichOne hasKey oracle M s idx t with
    | (.error e, s1) => (.error e, s1)
    | (.ok entry, s1) =>
      match enrichHead hasKey oracle M ts (idx + 1) s1 with
      | (.error e, s2) => (.error e, s2)
      | (.ok entries, s2) => (.ok (entry :: entries), s2)

/-- The `tailMinimal` mapping: rank and structural fields only, all
metadata fields `null`. -/
def tailMinimal (M : Model) (enrichCount : ℕ) (tail : List TopItem) :
    List RecEntry :=
  tail.mapIdx (fun i t =>
    mkRecEntry (enrichCount + i + 1) t (M.mid2tmdb t.movieId) none)

/-- The enrichment-split stage of `POST` for enrichment limit `L` over the
ranked pool: split at `min L pool.length`, enrich the head, leave the tail
minimal, concatenate in rank order. -/
def assembleRecs (hasKey : Bool) (oracle : ℤ → FetchOutcome) (M : Model)
    (L : ℕ) (pool : List TopItem) (s : FetchState) :
    Except Unit (List RecEntry) × FetchState :=
  match enrichHead hasKey oracle M (pool.take (min L pool.length)) 0 s with
  | (.error e, s1) => (.error e, s1)
  | (.ok headEnriched, s1) =>
    (.ok (headEnriched ++ tailMinimal M (min L pool.length)
      (pool.drop (min L pool.length))), s1)

/-! ### Request body validation (`POST` input) -/

/-- A JSON value sitting in a rating-record field: a (finite) number, or
anything else. -/
inductive JVal
  | num (q : ℚ)
  | other
deriving DecidableEq

/-- An element of the `ratings` array: an object with possibly missing or
non-numeric `movieId` / `rating` fields, or a non-object. -/
inductive RawRecord
  | notObj
  | obj (movieId : JVal) (rating : JVal)
deriving DecidableEq

/-- The parsed request body after `await req.json().catch(() => ({}))`. -/
inductive Body
  | parseFail                  -- unparseable JSON, caught: body = `{}`
  | noRatings                  -- `body?.ratings` missing or not an array
  | ratings (rs : List RawRecord)
deriving DecidableEq

/-- `Array.isArray(body?.ratings) ? body.ratings : []`. -/
def bodyRatings : Body → List RawRecord
  | .parseFail => []
  | .noRatings => []
  | .ratings rs => rs

/-- `Math.trunc`: rounding toward zero. -/
def jsTrunc (q : ℚ) : ℤ := if 0 ≤ q then ⌊q⌋ else ⌈q⌉

/-- The `clean` chain of `POST`: filter both-numbers, truncate the id,
keep ratings inside `[1, 5]`. -/
def cleanRatings (raws : List RawRecord) : List RatingInput :=
  ((raws.filter (fun r =>
      match r with
      | .obj (.num _) (.num _) => true
      | _ => false)).map (fun r =>
      match r with
      | .obj (.num m) (.num q) => RatingInput.mk (jsTrunc m) q
      | _ => RatingInput.mk 0 0)).filter
    (fun r => decide (1 ≤ r.rating) && decide (r.rating ≤ 5))

/-- Modelled from the spec: a record is kept exactly when both fields are
numbers and the rating lies in the closed interval `[1, 5]`; its `movieId`
is truncated to an integer. -/
def specValidRating : RawRecord → Option RatingInput
  | .obj (.num m) (.num q) =>
    if 1 ≤ q ∧ q ≤ 5 then some (RatingInput.mk (jsTrunc m) q) else none
  | _ => none

/-- `new Set(clean.map(r => r.movieId))`. -/
def excludeSet (clean : List RatingInput) : Finset ℤ :=
  (clean.map (·.movieId)).toFinset

def TOP_K_POOL : ℕ := 2500

def ENRICH_LIMIT : ℕ := 600

/-- The `POST` response body. -/
structure PostResponse where
  ok : Bool
  mode : String
  ratedCount : ℕ
  poolSize : ℕ
  enrichedCount : ℕ
  recs : List RecEntry
deriving DecidableEq

/-- The `POST` handler after a successful model load: validate → exclusion
set → user vector → score all rows → Top-K pool → enrich head / minimal
tail → respond. `Except.error ()` is an unhandled rejection (HTTP 500). -/
def POST (M : Model) (hasKey : Bool) (oracle : ℤ → FetchOutcome) (body : Body)
    (s : FetchState) : Except Unit PostResponse × FetchState :=
  let clean := cleanRatings (bodyRatings body)
  let exclude := excludeSet clean
  let u := buildUserVector M clean
  let scores := (List.range M.rows).map (fun i => dotItemWithUser M i u)
  let topPool := topKFromScores M scores TOP_K_POOL exclude
  match assembleRecs hasKey oracle M ENRICH_LIMIT topPool s with
  | (.error e, s1) => (.error e, s1)
  | (.ok recs, s1) =>
    (.ok { ok := true, mode := "personalized", ratedCount := clean.length,
           poolSize := recs.length,
           enrichedCount := min ENRICH_LIMIT topPool.length,
           recs := recs }, s1)

/-- The `GET` handler response (heap variant): slice the static
recommendations file to 50. -/
structure GetResponse (α : Type) where
  ok : Bool
  mode : String
  count : ℕ
  recs : List α

/-- The `GET` handler: serve the static file, mode `"static"`. -/
def GET {α : Type} (staticRecs : List α) : GetResponse α :=
  { ok := true, mode := "static", count := min 50 staticRecs.length,
    recs := staticRecs.take 50 }

/-! ### Model Store initialization (`loadModelOnce`) -/

/-- The backing artifacts as read-and-parse results; `Except.error ()`
models a missing file or a `JSON.parse` failure throwing. `factorsFile` is
the decoded `Float32Array` view of the buffer (`byteLength / 4` entries). -/
structure Artifacts where
  shapeJson : Except Unit (ℕ × ℕ)
  factorsFile : Except Unit (List ℚ)
  movieIdsJson : Except Unit (List ℤ)
  tmdbJson : Except Unit (ℤ → Option ℤ)

/-- `loadModelOnce()`: read and parse the four artifacts in order; any
failure propagates (the store is then not marked loaded). The source
performs no validation of the factor buffer length against the declared
shape. -/
def loadModelOnce (A : Artifacts) : Except Unit Model := do
  let shape ← A.shapeJson
  let factors ← A.factorsFile
  let mids ← A.movieIdsJson
  let m2t ← A.tmdbJson
  pure { rows := shape.1, cols := shape.2, itemFactors := factors,
         movieIds := mids, mid2tmdb := m2t }

/-! ### `buildUserVector` equals its closed-formula specification -/

theorem getD_range_map (n : ℕ) (f : ℕ → ℚ) {j : ℕ} (hj : j < n) :
    ((List.range n).map f).getD j 0 = f j := by
  rw [List.getD_eq_getElem _ _ (by simpa using hj), List.getElem_map,
    List.getElem_range]

theorem buildFold_spec (M : Model) :
    ∀ (ratings : List RatingInput) (u : List ℚ) (d : ℚ), u.length = M.cols →
      (ratings.foldl (buildStep M) (u, d)).2 = d + specDenom M ratings ∧
      (ratings.foldl (buildStep M) (u, d)).1.length = M.cols ∧
      ∀ j, j < M.cols →
        (ratings.foldl (buildStep M) (u, d)).1.getD j 0 =
          u.getD j 0 + ((validContribs M ratings).map
            (fun p => p.2 * M.itemFactors.getD (p.1 * M.cols + j) 0)).sum
  | [], u, d, hu => by
    refine ⟨by simp [specDenom, validContribs], hu, ?_⟩
    intro j hj
    simp [validContribs]
  | r :: rs, u, d, hu => by
    rw [List.foldl_cons]
    cases hidx : movieIdToIndex M r.movieId with
    | none =>
      have hstep : buildStep M (u, d) r = (u, d) := by rw [buildStep, hidx]
      have hvc : validContribs M (r :: rs) = validContribs M rs := by
        rw [validContribs, List.filterMap_cons]
        simp only [hidx, Option.none_bind]
        rfl
      have hsd : specDenom M (r :: rs) = specDenom M rs := by
        rw [specDenom, hvc, ← specDenom]
      rw [hstep]
      obtain ⟨h1, h2, h3⟩ := buildFold_spec M rs u d hu
      refine ⟨?_, h2, ?_⟩
      · rw [h1, hsd]
      · intro j hj
        rw [hvc]
        exact h3 j hj
    | some idx =>
      by_cases hw : r.rating - 3 = 0
      · have hstep : buildStep M (u, d) r = (u, d) := by
          rw [buildStep, hidx]
          simp [hw]
        have hvc : validContribs M (r :: rs) = validContribs M rs := by
          rw [validContribs, List.filterMap_cons]
          simp only [hidx, Option.some_bind, if_pos hw]
          rfl
        have hsd : specDenom M (r :: rs) = specDenom M rs := by
          rw [specDenom, hvc, ← specDenom]
        rw [hstep]
        obtain ⟨h1, h2, h3⟩ := buildFold_spec M rs u d hu
        refine ⟨?_, h2, ?_⟩
        · rw [h1, hsd]
        · intro j hj
          rw [hvc]
          exact h3 j hj
      · have hstep : buildStep M (u, d) r =
            ((List.range M.cols).map (fun j => u.getD j 0 +
              (r.rating - 3) * M.itemFactors.getD (idx * M.cols + j) 0),
              d + |r.rating - 3|) := by
          rw [buildStep, hidx]
          simp [hw]
        have hvc : validContribs M (r :: rs) =
            (idx, r.rating - 3) :: validContribs M rs := by
          rw [validContribs, List.filterMap_cons]
          simp only [hidx, Option.some_bind, if_neg hw]
          rfl
        rw [hstep]
        obtain ⟨h1, h2, h3⟩ :=
          buildFold_spec M rs ((List.range M.cols).map (fun j => u.getD j 0 +
            (r.rating - 3) * M.itemFactors.getD (idx * M.cols + j) 0))
            (d + |r.rating - 3|) (by simp)
        have hsd : specDenom M (r :: rs) = |r.rating - 3| + specDenom M rs := by
          rw [specDenom, hvc, List.map_cons, List.sum_cons, ← specDenom]
        refine ⟨?_, h2, ?_⟩
        · rw [h1, hsd]
          ring
        · intro j hj
          rw [h3 j hj, getD_range_map _ _ hj, hvc, List.map_cons, List.sum_cons]
          ring

theorem validContribs_snd_ne (M : Model) (ratings : List RatingInput) :
    ∀ p ∈ validContribs M ratings, p.2 ≠ 0 := by
  intro p hp
  obtain ⟨r, _, hparse⟩ := List.mem_filterMap.mp hp
  cases hb : movieIdToIndex M r.movieId with
  | none => rw [hb] at hparse; simp at hparse
  | some idx =>
    rw [hb, Option.some_bind] at hparse
    split_ifs at hparse with hw
    rw [← Option.some_inj.mp hparse]
    exact hw

theorem specDenom_nonneg (M : Model) (ratings : List RatingInput) :
    0 ≤ specDenom M ratings := by
  apply List.sum_nonneg
  intro x hx
  obtain ⟨p, _, rfl⟩ := List.mem_map.mp hx
  exact abs_nonneg _

theorem validContribs_eq_nil (M : Model) (ratings : List RatingInput)
    (h : ¬ 0 < specDenom M ratings) : validContribs M ratings = [] := by
  cases hvc : validContribs M ratings with
  | nil => rfl
  | cons p l =>
    exfalso
    apply h
    rw [specDenom, hvc, List.map_cons, List.sum_cons]
    have hp2 : p.2 ≠ 0 := by
      apply validContribs_snd_ne M ratings
      rw [hvc]
      exact List.mem_cons_self _ _
    have hrest : 0 ≤ (l.map (fun p => |p.2|)).sum := by
      apply List.sum_nonneg
      intro x hx
      obtain ⟨q, _, rfl⟩ := List.mem_map.mp hx
      exact abs_nonneg _
    have := abs_pos.mpr hp2
    linarith

theorem buildUserVector_eq_spec (M : Model) (ratings : List RatingInput) :
    buildUserVector M ratings = specUserVector M ratings := by
  obtain ⟨h1, h2, h3⟩ :=
    buildFold_spec M ratings (List.replicate M.cols 0) 0 (by simp)
  have hrep : ∀ j : ℕ, (List.replicate M.cols (0 : ℚ)).getD j 0 = 0 := by
    intro j
    rw [List.getD_eq_getElem?_getD, List.getElem?_replicate]
    split_ifs <;> rfl
  have hacc2 : (buildAcc M ratings).2 = specDenom M ratings := by
    rw [buildAcc, h1, zero_add]
  rw [buildUserVector, specUserVector, hacc2]
  split_ifs with hpos
  · apply List.ext_getElem
    · simp only [List.length_map, List.length_range]
      rw [buildAcc]
      exact h2
    · intro n h1' h2'
      have hn : n < M.cols := by simpa using h2'
      have hn2 : n < (buildAcc M ratings).1.length := by simpa using h1'
      rw [List.getElem_map, List.getElem_map, List.getElem_range,
        ← List.getD_eq_getElem _ 0 hn2, buildAcc, h3 n hn, hrep n, zero_add]
  · apply List.ext_getElem
    · simp only [List.length_replicate]
      rw [buildAcc]
      exact h2
    · intro n h1' h2'
      have hn : n < M.cols := by simpa using h2'
      have hn2 : n < (buildAcc M ratings).1.length := by simpa using h1'
      rw [List.getElem_replicate, ← List.getD_eq_getElem _ 0 hn2, buildAcc,
        h3 n hn, hrep n, zero_add, validContribs_eq_nil M ratings hpos]
      simp

theorem validContribs_nil_of_neutral (M : Model) (ratings : List RatingInput)
    (h : ∀ r ∈ ratings, movieIdToIndex M r.movieId = none ∨ r.rating = 3) :
    validContribs M ratings = [] := by
  rw [validContribs, List.filterMap_eq_nil_iff]
  intro r hr
  rcases h r hr with hnone | h3
  · rw [hnone]
    rfl
  · cases hb : movieIdToIndex M r.movieId with
    | none => rfl
    | some idx =>
      rw [Option.some_bind, if_pos]
      rw [h3]
      norm_num

theorem buildUserVector_zero_of_neutral (M : Model) (ratings : List RatingInput)
    (h : ∀ r ∈ ratings, movieIdToIndex M r.movieId = none ∨ r.rating = 3) :
    buildUserVector M ratings = List.replicate M.cols 0 := by
  rw [buildUserVector_eq_spec, specUserVector]
  have hvc := validContribs_nil_of_neutral M ratings h
  rw [if_neg]
  rw [specDenom, hvc]
  simp

theorem dotItemWithUser_replicate_zero (M : Model) (i : ℕ) :
    dotItemWithUser M i (List.replicate M.cols 0) = 0 := by
  rw [dotItemWithUser]
  have hz : ∀ (l : List ℕ) (s : ℚ),
      l.foldl (fun s j => s + M.itemFactors.getD (i * M.cols + j) 0 *
        (List.replicate M.cols (0 : ℚ)).getD j 0) s = s := by
    intro l
    induction l with
    | nil => intro s; rfl
    | cons a l ih =>
      intro s
      rw [List.foldl_cons]
      have hrep : (List.replicate M.cols (0 : ℚ)).getD a 0 = 0 := by
        rw [List.getD_eq_getElem?_getD, List.getElem?_replicate]
        split_ifs <;> rfl
      rw [hrep, mul_zero, add_zero]
      exact ih s
  exact hz _ 0

/-! ### Cache discipline of `tmdbMovieFull` -/

theorem tmdbMovieFull_nokey (oracle : ℤ → FetchOutcome) (s : FetchState)
    (tmdbId : ℤ) : tmdbMovieFull false oracle s tmdbId = (.ok none, s) := rfl

theorem tmdbMovieFull_hit (oracle : ℤ → FetchOutcome) (s : FetchState)
    (tmdbId : ℤ) (p : TmdbPayload) (h : cacheLookup s.cache tmdbId = some p) :
    tmdbMovieFull true oracle s tmdbId = (.ok (some p), s) := by
  simp [tmdbMovieFull, h]

theorem tmdbMovieFull_miss_notOk (oracle : ℤ → FetchOutcome) (s : FetchState)
    (tmdbId : ℤ) (h : cacheLookup s.cache tmdbId = none)
    (ho : oracle tmdbId = .notOk) :
    tmdbMovieFull true oracle s tmdbId =
      (.ok none, { s with calls := s.calls ++ [tmdbId] }) := by
  simp [tmdbMovieFull, h, ho]

theorem tmdbMovieFull_miss_netError (oracle : ℤ → FetchOutcome) (s : FetchState)
    (tmdbId : ℤ) (h : cacheLookup s.cache tmdbId = none)
    (ho : oracle tmdbId = .netError) :
    tmdbMovieFull true oracle s tmdbId =
      (.error (), { s with calls := s.calls ++ [tmdbId] }) := by
  simp [tmdbMovieFull, h, ho]

theorem tmdbMovieFull_miss_malformed (oracle : ℤ → FetchOutcome) (s : FetchState)
    (tmdbId : ℤ) (h : cacheLookup s.cache tmdbId = none)
    (ho : oracle tmdbId = .malformedBody) :
    tmdbMovieFull true oracle s tmdbId =
      (.error (), { s with calls := s.calls ++ [tmdbId] }) := by
  simp [tmdbMovieFull, h, ho]

theorem tmdbMovieFull_miss_success (oracle : ℤ → FetchOutcome) (s : FetchState)
    (tmdbId : ℤ) (d : TmdbRaw) (h : cacheLookup s.cache tmdbId = none)
    (ho : oracle tmdbId = .success d) :
    tmdbMovieFull true oracle s tmdbId =
      (.ok (some (parseTmdb d)),
        { cache := s.cache ++ [(tmdbId, parseTmdb d)],
          calls := s.calls ++ [tmdbId] }) := by
  simp [tmdbMovieFull, h, ho]

theorem tmdbMovieFull_calls (hasKey : Bool) (oracle : ℤ → FetchOutcome)
    (s : FetchState) (tmdbId : ℤ) :
    ∀ c ∈ (tmdbMovieFull hasKey oracle s tmdbId).2.calls,
      c ∈ s.calls ∨ c = tmdbId := by
  intro c hc
  cases hasKey with
  | false => exact Or.inl hc
  | true =>
    cases hl : cacheLookup s.cache tmdbId with
    | some p =>
      rw [tmdbMovieFull_hit oracle s tmdbId p hl] at hc
      exact Or.inl hc
    | none =>
      cases ho : oracle tmdbId with
      | netError =>
        rw [tmdbMovieFull_miss_netError oracle s tmdbId hl ho] at hc
        rcases List.mem_append.mp hc with h | h
        · exact Or.inl h
        · exact Or.inr (List.mem_singleton.mp h)
      | notOk =>
        rw [tmdbMovieFull_miss_notOk oracle s tmdbId hl ho] at hc
        rcases List.mem_append.mp hc with h | h
        · exact Or.inl h
        · exact Or.inr (List.mem_singleton.mp h)
      | malformedBody =>
        rw [tmdbMovieFull_miss_malformed oracle s tmdbId hl ho] at hc
        rcases List.mem_append.mp hc with h | h
        · exact Or.inl h
        · exact Or.inr (List.mem_singleton.mp h)
      | success d =>
        rw [tmdbMovieFull_miss_success oracle s tmdbId d hl ho] at hc
        rcases List.mem_append.mp hc with h | h
        · exact Or.inl h
        · exact Or.inr (List.mem_singleton.mp h)

/-! ### Per-slot and per-window enrichment facts -/

instance : Inhabited RecEntry := ⟨mkRecEntry 0 default none none⟩

/-- All nine metadata fields of an entry are `null`. -/
def metadataNull (e : RecEntry) : Prop :=
  e.title = none ∧ e.poster_url = none ∧ e.backdrop_url = none ∧
  e.overview = none ∧ e.year = none ∧ e.director = none ∧ e.runtime = none ∧
  e.original_language = none ∧ e.genres = none

instance (e : RecEntry) : Decidable (metadataNull e) := by
  unfold metadataNull
  infer_instance

theorem mkRecEntry_metadataNull (rank : ℕ) (t : TopItem) (tmdbId : Option ℤ) :
    metadataNull (mkRecEntry rank t tmdbId none) :=
  ⟨rfl, rfl, rfl, rfl, rfl, rfl, rfl, rfl, rfl⟩

theorem enrichOne_spec (hasKey : Bool) (oracle : ℤ → FetchOutcome) (M : Model)
    (s : FetchState) (idx : ℕ) (t : TopItem) (entry : RecEntry) (st1 : FetchState)
    (h : enrichOne hasKey oracle M s idx t = (.ok entry, st1)) :
    ∃ payload : Option TmdbPayload,
      entry = mkRecEntry (idx + 1) t (M.mid2tmdb t.movieId) payload ∧
      ((M.mid2tmdb t.movieId = some 0 ∨ M.mid2tmdb t.movieId = none) →
        payload = none) := by
  rw [enrichOne] at h
  cases hmap : M.mid2tmdb t.movieId with
  | none =>
    rw [hmap, Prod.mk.injEq] at h
    injection h.1 with hE
    exact ⟨none, by rw [← hE], fun _ => rfl⟩
  | some n =>
    rw [hmap] at h
    dsimp only at h
    split_ifs at h with hn
    · rw [Prod.mk.injEq] at h
      injection h.1 with hE
      subst hn
      exact ⟨none, by rw [← hE], fun _ => rfl⟩
    · rcases hf : tmdbMovieFull hasKey oracle s n with ⟨ef, sf⟩
      rw [hf] at h
      cases ef with
      | error e =>
        rw [Prod.mk.injEq] at h
        exact absurd h.1 (by simp)
      | ok payload =>
        rw [Prod.mk.injEq] at h
        injection h.1 with hE
        refine ⟨payload, by rw [← hE], ?_⟩
        intro hcase
        rcases hcase with h0 | h0
        · exact absurd (Option.some_inj.mp h0) hn
        · simp at h0

theorem enrichOne_zero (hasKey : Bool) (oracle : ℤ → FetchOutcome) (M : Model)
    (s : FetchState) (idx : ℕ) (t : TopItem)
    (h : M.mid2tmdb t.movieId = some 0) :
    enrichOne hasKey oracle M s idx t =
      (.ok (mkRecEntry (idx + 1) t (some 0) none), s) := by
  rw [enrichOne, h]
  simp

theorem enrichOne_nomap (hasKey : Bool) (oracle : ℤ → FetchOutcome) (M : Model)
    (s : FetchState) (idx : ℕ) (t : TopItem) (h : M.mid2tmdb t.movieId = none) :
    enrichOne hasKey oracle M s idx t =
      (.ok (mkRecEntry (idx + 1) t none none), s) := by
  rw [enrichOne, h]

theorem enrichOne_calls (hasKey : Bool) (oracle : ℤ → FetchOutcome) (M : Model)
    (s : FetchState) (idx : ℕ) (t : TopItem) :
    ∀ c ∈ (enrichOne hasKey oracle M s idx t).2.calls,
      c ∈ s.calls ∨ ∃ n, M.mid2tmdb t.movieId = some n ∧ n ≠ 0 ∧ c = n := by
  intro c hc
  rw [enrichOne] at hc
  cases hmap : M.mid2tmdb t.movieId with
  | none =>
    rw [hmap] at hc
    exact Or.inl hc
  | some n =>
    rw [hmap] at hc
    dsimp only at hc
    split_ifs at hc with hn
    · exact Or.inl hc
    · rcases hf : tmdbMovieFull hasKey oracle s n with ⟨ef, sf⟩
      rw [hf] at hc
      have hsf : c ∈ sf.calls → c ∈ s.calls ∨ c = n := by
        intro hc'
        exact tmdbMovieFull_calls hasKey oracle s n c (by rw [hf]; exact hc')
      have hcs : c ∈ sf.calls := by
        cases ef with
        | error e => exact hc
        | ok _ => exact hc
      rcases hsf hcs with h | h
      · exact Or.inl h
      · exact Or.inr ⟨n, rfl, hn, h⟩

theorem enrichOne_nokey (oracle : ℤ → FetchOutcome) (M : Model) (s : FetchState)
    (idx : ℕ) (t : TopItem) :
    enrichOne false oracle M s idx t =
      (.ok (mkRecEntry (idx + 1) t (M.mid2tmdb t.movieId) none), s) := by
  rw [enrichOne]
  cases hmap : M.mid2tmdb t.movieId with
  | none => rfl
  | some n =>
    dsimp only
    split_ifs with hn
    · subst hn
      rfl
    · rw [tmdbMovieFull_nokey]

theorem enrichHead_spec (hasKey : Bool) (oracle : ℤ → FetchOutcome) (M : Model) :
    ∀ (ts : List TopItem) (idx : ℕ) (s : FetchState) (entries : List RecEntry)
      (s1 : FetchState),
      enrichHead hasKey oracle M ts idx s = (.ok entries, s1) →
      entries.length = ts.length ∧
      ∀ k, k < ts.length →
        ∃ payload : Option TmdbPayload,
          entries.getD k default =
            mkRecEntry (idx + k + 1) (ts.getD k default)
              (M.mid2tmdb (ts.getD k default).movieId) payload ∧
          ((M.mid2tmdb (ts.getD k default).movieId = some 0 ∨
            M.mid2tmdb (ts.getD k default).movieId = none) → payload = none)
  | [], idx, s, entries, s1, h => by
    rw [enrichHead, Prod.mk.injEq] at h
    obtain ⟨hE, hS⟩ := h
    injection hE with hE
    subst hE
    refine ⟨rfl, ?_⟩
    intro k hk
    simp at hk
  | t :: ts, idx, s, entries, s1, h => by
    rw [enrichHead] at h
    rcases h1 : enrichOne hasKey oracle M s idx t with ⟨e1, st1⟩
    rw [h1] at h
    cases e1 with
    | error e =>
      rw [Prod.mk.injEq] at h
      exact absurd h.1 (by simp)
    | ok entry =>
      dsimp only at h
      rcases h2 : enrichHead hasKey oracle M ts (idx + 1) st1 with ⟨e2, st2⟩
      rw [h2] at h
      cases e2 with
      | error e =>
        rw [Prod.mk.injEq] at h
        exact absurd h.1 (by simp)
      | ok rest =>
        rw [Prod.mk.injEq] at h
        obtain ⟨hE, hS⟩ := h
        injection hE with hE
        subst hE
        subst hS
        obtain ⟨ihlen, ihspec⟩ := enrichHead_spec hasKey oracle M ts (idx + 1)
          st1 rest st2 h2
        refine ⟨by simp [ihlen], ?_⟩
        intro k hk
        cases k with
        | zero =>
          obtain ⟨payload, hpe, hpz⟩ :=
            enrichOne_spec hasKey oracle M s idx t entry st1 h1
          refine ⟨payload, ?_, ?_⟩
          · simpa using hpe
          · simpa using hpz
        | succ k' =>
          have hk' : k' < ts.length := by simpa using hk
          obtain ⟨payload, hpe, hpz⟩ := ihspec k' hk'
          refine ⟨payload, ?_, ?_⟩
          · have harith : idx + 1 + k' + 1 = idx + (k' + 1) + 1 := by omega
            rw [List.getD_cons_succ, List.getD_cons_succ, ← harith]
            exact hpe
          · rw [List.getD_cons_succ]
            exact hpz

theorem enrichHead_calls (hasKey : Bool) (oracle : ℤ → FetchOutcome) (M : Model) :
    ∀ (ts : List TopItem) (idx : ℕ) (s : FetchState),
      ∀ c ∈ (enrichHead hasKey oracle M ts idx s).2.calls,
        c ∈ s.calls ∨ ∃ t ∈ ts, ∃ n, M.mid2tmdb t.movieId = some n ∧ n ≠ 0 ∧ c = n
  | [], idx, s, c, hc => Or.inl hc
  | t :: ts, idx, s, c, hc => by
    rw [enrichHead] at hc
    rcases h1 : enrichOne hasKey oracle M s idx t with ⟨e1, st1⟩
    rw [h1] at hc
    have hone : ∀ c' ∈ st1.calls,
        c' ∈ s.calls ∨ ∃ n, M.mid2tmdb t.movieId = some n ∧ n ≠ 0 ∧ c' = n := by
      intro c' hc'
      exact enrichOne_calls hasKey oracle M s idx t c' (by rw [h1]; exact hc')
    cases e1 with
    | error e =>
      rcases hone c hc with h | ⟨n, hn⟩
      · exact Or.inl h
      · exact Or.inr ⟨t, List.mem_cons_self _ _, n, hn⟩
    | ok entry =>
      dsimp only at hc
      rcases h2 : enrichHead hasKey oracle M ts (idx + 1) st1 with ⟨e2, st2⟩
      rw [h2] at hc
      have hrec : ∀ c' ∈ st2.calls, c' ∈ st1.calls ∨
          ∃ t' ∈ ts, ∃ n, M.mid2tmdb t'.movieId = some n ∧ n ≠ 0 ∧ c' = n := by
        intro c' hc'
        exact enrichHead_calls hasKey oracle M ts (idx + 1) st1 c'
          (by rw [h2]; exact hc')
      have hc2 : c ∈ st2.calls := by
        cases e2 with
        | error e => exact hc
        | ok rest => exact hc
      rcases hrec c hc2 with h | ⟨t', ht', n, hn⟩
      · rcases hone c h with h' | ⟨n, hn⟩
        · exact Or.inl h'
        · exact Or.inr ⟨t, List.mem_cons_self _ _, n, hn⟩
      · exact Or.inr ⟨t', List.mem_cons_of_mem _ ht', n, hn⟩

theorem enrichHead_nokey (oracle : ℤ → FetchOutcome) (M : Model) :
    ∀ (ts : List TopItem) (idx : ℕ) (s : FetchState),
      ∃ entries : List RecEntry,
        enrichHead false oracle M ts idx s = (.ok entries, s) ∧
        ∀ e ∈ entries, metadataNull e
  | [], idx, s => ⟨[], rfl, by simp⟩
  | t :: ts, idx, s => by
    have h1 := enrichOne_nokey oracle M s idx t
    obtain ⟨entries, h2, hnull⟩ := enrichHead_nokey oracle M ts (idx + 1) s
    refine ⟨mkRecEntry (idx + 1) t (M.mid2tmdb t.movieId) none :: entries, ?_, ?_⟩
    · rw [enrichHead, h1]
      dsimp only
      rw [h2]
    · intro e he
      rcases List.mem_cons.mp he with rfl | he'
      · exact mkRecEntry_metadataNull _ _ _
      · exact hnull e he'

theorem tailMinimal_getD (M : Model) (c : ℕ) (tail : List TopItem) {i : ℕ}
    (hi : i < tail.length) :
    (tailMinimal M c tail).getD i default =
      mkRecEntry (c + i + 1) (tail.getD i default)
        (M.mid2tmdb (tail.getD i default).movieId) none := by
  rw [tailMinimal,
    List.getD_eq_getElem _ _ (by rw [List.length_mapIdx]; exact hi),
    List.getElem_mapIdx, List.getD_eq_getElem _ _ hi]

theorem tailMinimal_metadataNull (M : Model) (c : ℕ) (tail : List TopItem) :
    ∀ e ∈ tailMinimal M c tail, metadataNull e := by
  intro e he
  rw [tailMinimal] at he
  obtain ⟨k, hk, rfl⟩ := List.getElem_of_mem he
  rw [List.getElem_mapIdx]
  exact mkRecEntry_metadataNull _ _ _

/-- Full structural description of the assembled response list: one entry
per pool slot in order, rank `k+1`, the pool entry's `movieId`, its mapped
external id, its rounded score; all metadata fields `null` outside the
enrichment window, and also inside it when the external id is `0` or
missing. -/
theorem assembleRecs_spec (hasKey : Bool) (oracle : ℤ → FetchOutcome) (M : Model)
    (L : ℕ) (pool : List TopItem) (s : FetchState) (recs : List RecEntry)
    (s1 : FetchState)
    (h : assembleRecs hasKey oracle M L pool s = (.ok recs, s1)) :
    recs.length = pool.length ∧
    (∀ k, k < pool.length →
      (recs.getD k default).rank = k + 1 ∧
      (recs.getD k default).movieId = (pool.getD k default).movieId ∧
      (recs.getD k default).tmdbId =
        M.mid2tmdb (pool.getD k default).movieId ∧
      (recs.getD k default).score = round6 (pool.getD k default).score) ∧
    (∀ k, min L pool.length ≤ k → k < pool.length →
      metadataNull (recs.getD k default)) ∧
    (∀ k, k < min L pool.length →
      (M.mid2tmdb (pool.getD k default).movieId = some 0 ∨
        M.mid2tmdb (pool.getD k default).movieId = none) →
      metadataNull (recs.getD k default)) := by
  rw [assembleRecs] at h
  rcases h1 : enrichHead hasKey oracle M (pool.take (min L pool.length)) 0 s with
    ⟨e1, st1⟩
  rw [h1] at h
  cases e1 with
  | error e =>
    rw [Prod.mk.injEq] at h
    exact absurd h.1 (by simp)
  | ok headE =>
    rw [Prod.mk.injEq] at h
    obtain ⟨hE, hS⟩ := h
    injection hE with hE
    subst hE
    subst hS
    obtain ⟨hhlen, hhspec⟩ := enrichHead_spec hasKey oracle M _ 0 s headE st1 h1
    have hc_le : min L pool.length ≤ pool.length := Nat.min_le_right _ _
    have hhlen' : headE.length = min L pool.length := by
      rw [hhlen, List.length_take]
      omega
    have htlen : (tailMinimal M (min L pool.length)
        (pool.drop (min L pool.length))).length = pool.length - min L pool.length := by
      rw [tailMinimal, List.length_mapIdx, List.length_drop]
    have htake : ∀ k, k < min L pool.length →
        (pool.take (min L pool.length)).getD k default = pool.getD k default := by
      intro k hk
      have hk1 : k < (pool.take (min L pool.length)).length := by
        rw [List.length_take]
        omega
      rw [List.getD_eq_getElem _ _ hk1, List.getElem_take,
        List.getD_eq_getElem _ _ (by omega)]
    constructor
    · rw [List.length_append, hhlen', htlen]
      omega
    have hentry : ∀ k, k < pool.length →
        ∃ payload : Option TmdbPayload,
          (headE ++ tailMinimal M (min L pool.length)
            (pool.drop (min L pool.length))).getD k default =
            mkRecEntry (k + 1) (pool.getD k default)
              (M.mid2tmdb (pool.getD k default).movieId) payload ∧
          (min L pool.length ≤ k → payload = none) ∧
          ((M.mid2tmdb (pool.getD k default).movieId = some 0 ∨
            M.mid2tmdb (pool.getD k default).movieId = none) → payload = none) := by
      intro k hk
      by_cases hkc : k < min L pool.length
      · have hk1 : k < headE.length := by omega
        rw [List.getD_eq_getElem _ _ (by rw [List.length_append]; omega),
          List.getElem_append_left hk1, ← List.getD_eq_getElem _ default hk1]
        obtain ⟨payload, hpe, hpz⟩ := hhspec k (by rw [List.length_take]; omega)
        rw [htake k hkc] at hpe hpz
        refine ⟨payload, ?_, ?_, hpz⟩
        · rw [hpe]
          norm_num
        · intro hck
          omega
      · have hk2 : headE.length ≤ k := by omega
        rw [List.getD_append_right _ _ _ _ hk2, hhlen']
        have hi : k - min L pool.length < (pool.drop (min L pool.length)).length := by
          rw [List.length_drop]
          omega
        rw [tailMinimal_getD M _ _ hi]
        have hdrop : (pool.drop (min L pool.length)).getD (k - min L pool.length)
            default = pool.getD k default := by
          rw [List.getD_eq_getElem _ _ hi, List.getElem_drop,
            List.getD_eq_getElem _ _ hk]
          congr 1
          omega
        rw [hdrop]
        refine ⟨none, ?_, fun _ => rfl, fun _ => rfl⟩
        congr 1
        omega
    refine ⟨?_, ?_, ?_⟩
    · intro k hk
      obtain ⟨payload, hpe, -, -⟩ := hentry k hk
      rw [hpe]
      exact ⟨rfl, rfl, rfl, rfl⟩
    · intro k hck hk
      obtain ⟨payload, hpe, hpnone, -⟩ := hentry k hk
      rw [hpe, hpnone hck]
      exact mkRecEntry_metadataNull _ _ _
    · intro k hck hmap
      obtain ⟨payload, hpe, -, hpz⟩ := hentry k (by omega)
      rw [hpe, hpz hmap]
      exact mkRecEntry_metadataNull _ _ _

theorem assembleRecs_calls (hasKey : Bool) (oracle : ℤ → FetchOutcome) (M : Model)
    (L : ℕ) (pool : List TopItem) (s : FetchState) :
    ∀ c ∈ (assembleRecs hasKey oracle M L pool s).2.calls,
      c ∈ s.calls ∨ ∃ t ∈ pool.take (min L pool.length),
        ∃ n, M.mid2tmdb t.movieId = some n ∧ n ≠ 0 ∧ c = n := by
  intro c hc
  rw [assembleRecs] at hc
  rcases h1 : enrichHead hasKey oracle M (pool.take (min L pool.length)) 0 s with
    ⟨e1, st1⟩
  rw [h1] at hc
  have hc1 : c ∈ st1.calls := by
    cases e1 with
    | error e => exact hc
    | ok headE => exact hc
  exact enrichHead_calls hasKey oracle M _ 0 s c (by rw [h1]; exact hc1)

/-! ### `POST`-level facts -/

/-- The ranked pool computed inside `POST` for a given body. -/
def postPool (M : Model) (body : Body) : List TopItem :=
  topKFromScores M
    ((List.range M.rows).map (fun i =>
      dotItemWithUser M i (buildUserVector M (cleanRatings (bodyRatings body)))))
    TOP_K_POOL (excludeSet (cleanRatings (bodyRatings body)))

theorem POST_eq (M : Model) (hasKey : Bool) (oracle : ℤ → FetchOutcome)
    (body : Body) (s : FetchState) :
    POST M hasKey oracle body s =
      match assembleRecs hasKey oracle M ENRICH_LIMIT (postPool M body) s with
      | (.error e, s1) => (.error e, s1)
      | (.ok recs, s1) =>
        (.ok { ok := true, mode := "personalized",
               ratedCount := (cleanRatings (bodyRatings body)).length,
               poolSize := recs.length,
               enrichedCount := min ENRICH_LIMIT (postPool M body).length,
               recs := recs }, s1) := rfl

theorem assembleRecs_nokey (oracle : ℤ → FetchOutcome) (M : Model) (L : ℕ)
    (pool : List TopItem) (s : FetchState) :
    ∃ recs : List RecEntry,
      assembleRecs false oracle M L pool s = (.ok recs, s) ∧
      ∀ e ∈ recs, metadataNull e := by
  obtain ⟨entries, h1, hnull⟩ :=
    enrichHead_nokey oracle M (pool.take (min L pool.length)) 0 s
  refine ⟨entries ++ tailMinimal M (min L pool.length)
    (pool.drop (min L pool.length)), ?_, ?_⟩
  · rw [assembleRecs, h1]
  · intro e he
    rcases List.mem_append.mp he with h | h
    · exact hnull e h
    · exact tailMinimal_metadataNull M _ _ e h

theorem POST_nokey (M : Model) (oracle : ℤ → FetchOutcome) (body : Body)
    (s : FetchState) :
    ∃ r : PostResponse, POST M false oracle body s = (.ok r, s) ∧
      ∀ e ∈ r.recs, metadataNull e := by
  obtain ⟨recs, h1, hnull⟩ :=
    assembleRecs_nokey oracle M ENRICH_LIMIT (postPool M body) s
  refine ⟨{ ok := true, mode := "personalized",
            ratedCount := (cleanRatings (bodyRatings body)).length,
            poolSize := recs.length,
            enrichedCount := min ENRICH_LIMIT (postPool M body).length,
            recs := recs }, ?_, ?_⟩
  · rw [POST_eq, h1]
  · exact hnull

theorem POST_mode (M : Model) (hasKey : Bool) (oracle : ℤ → FetchOutcome)
    (body : Body) (s : FetchState) (r : PostResponse) (s1 : FetchState)
    (h : POST M hasKey oracle body s = (.ok r, s1)) :
    r.mode = "personalized" := by
  rw [POST_eq] at h
  rcases h2 : assembleRecs hasKey oracle M ENRICH_LIMIT (postPool M body) s with
    ⟨e1, st1⟩
  rw [h2] at h
  cases e1 with
  | error e =>
    rw [Prod.mk.injEq] at h
    exact absurd h.1 (by simp)
  | ok recs =>
    rw [Prod.mk.injEq] at h
    injection h.1 with hE
    rw [← hE]

theorem POST_recs (M : Model) (hasKey : Bool) (oracle : ℤ → FetchOutcome)
    (body : Body) (s : FetchState) (r : PostResponse) (s1 : FetchState)
    (h : POST M hasKey oracle body s = (.ok r, s1)) :
    assembleRecs hasKey oracle M ENRICH_LIMIT (postPool M body) s =
      (.ok r.recs, s1) := by
  rw [POST_eq] at h
  rcases h2 : assembleRecs hasKey oracle M ENRICH_LIMIT (postPool M body) s with
    ⟨e1, st1⟩
  rw [h2] at h
  cases e1 with
  | error e =>
    rw [Prod.mk.injEq] at h
    exact absurd h.1 (by simp)
  | ok recs =>
    rw [Prod.mk.injEq] at h
    obtain ⟨hE, hS⟩ := h
    injection hE with hE
    rw [← hE, hS]

theorem postPool_not_excluded (M : Model) (body : Body) :
    ∀ e ∈ postPool M body,
      e.movieId ∉ excludeSet (cleanRatings (bodyRatings body)) :=
  topKFromScores_not_excluded M _ TOP_K_POOL _

theorem POST_exclusion (M : Model) (hasKey : Bool) (oracle : ℤ → FetchOutcome)
    (body : Body) (s : FetchState) (r : PostResponse) (s1 : FetchState)
    (h : POST M hasKey oracle body s = (.ok r, s1)) :
    ∀ e ∈ r.recs, e.movieId ∉ excludeSet (cleanRatings (bodyRatings body)) := by
  intro e he
  have hrec := POST_recs M hasKey oracle body s r s1 h
  obtain ⟨hlen, hfields, -, -⟩ :=
    assembleRecs_spec hasKey oracle M ENRICH_LIMIT (postPool M body) s r.recs s1 hrec
  obtain ⟨k, hk, rfl⟩ := List.getElem_of_mem he
  have hk' : k < (postPool M body).length := by rw [← hlen]; exact hk
  have hgetD : r.recs.getD k default = r.recs[k] := List.getD_eq_getElem _ _ hk
  have hmid := (hfields k hk').2.1
  rw [hgetD] at hmid
  rw [hmid]
  have hmem : (postPool M body).getD k default ∈ postPool M body := by
    rw [List.getD_eq_getElem _ _ hk']
    exact List.getElem_mem hk'
  exact postPool_not_excluded M body _ hmem

theorem clean_mem_exclude (clean : List RatingInput) (r : RatingInput)
    (hr : r ∈ clean) : r.movieId ∈ excludeSet clean := by
  rw [excludeSet, List.mem_toFinset]
  exact List.mem_map.mpr ⟨r, hr, rfl⟩

/-! ### Request-body normalization facts -/

theorem cleanRatings_cons (r : RawRecord) (raws : List RawRecord) :
    cleanRatings (r :: raws) =
      match specValidRating r with
      | none => cleanRatings raws
      | some v => v :: cleanRatings raws := by
  cases r with
  | notObj => rfl
  | obj m q =>
    cases m with
    | other => cases q <;> rfl
    | num mq =>
      cases q with
      | other => rfl
      | num qq =>
        by_cases h1 : (1 : ℚ) ≤ qq <;> by_cases h5 : qq ≤ 5 <;>
          simp [cleanRatings, specValidRating, List.filter_cons, h1, h5]

theorem cleanRatings_eq_filterMap (raws : List RawRecord) :
    cleanRatings raws = raws.filterMap specValidRating := by
  induction raws with
  | nil => rfl
  | cons r raws ih =>
    rw [cleanRatings_cons, List.filterMap_cons]
    cases specValidRating r <;> simp [ih]

/-! ### Concrete fixtures used by witnesses and counterexamples -/

/-- A three-item catalog with one latent dimension and no external-id
mapping. -/
def M3 : Model :=
  { rows := 3, cols := 1, itemFactors := [0, 0, 0], movieIds := [10, 20, 30],
    mid2tmdb := fun _ => none }

/-- A two-item catalog whose first item maps to the external id `0`. -/
def Mzero : Model :=
  { rows := 2, cols := 1, itemFactors := [0, 0], movieIds := [1, 2],
    mid2tmdb := fun m => if m = 1 then some 0 else none }

/-- A three-item catalog with zero latent dimensions (every score is `0`
with no arithmetic involved) and no external-id mapping. -/
def M30 : Model :=
  { rows := 3, cols := 0, itemFactors := [], movieIds := [10, 20, 30],
    mid2tmdb := fun _ => none }

/-- An oracle whose every outbound call yields a non-success status. -/
def oracleNotOk : ℤ → FetchOutcome := fun _ => .notOk

/-- The empty fetch state: empty cache, no calls issued. -/
def s0 : FetchState := ⟨[], []⟩

/-- A ranked pool of five entries with descending scores. -/
def pool5 : List TopItem := [⟨1, 5⟩, ⟨2, 4⟩, ⟨3, 3⟩, ⟨4, 2⟩, ⟨5, 1⟩]

/-! ### Claims -/

/-- C1 counterexample: with the score vector `[1, 1, 2]`, `K = 2`, and no
exclusions, the heap selector keeps `(20, 1)` (it evicted the tied root
`(10, 1)`), while the brute-force reference — stable descending sort, first
`K` — keeps `(10, 1)`; the two `(item id, score)` pair sets differ, so the
claimed equivalence fails at tied scores. -/
theorem claim_C1_counterexample :
    topKFromScores M3 [1, 1, 2] 2 ∅ = [⟨30, 2⟩, ⟨20, 1⟩] ∧
    bruteForceTopK M3 [1, 1, 2] 2 ∅ = [⟨30, 2⟩, ⟨10, 1⟩] ∧
    pairSet (topKFromScores M3 [1, 1, 2] 2 ∅) ≠
      pairSet (bruteForceTopK M3 [1, 1, 2] 2 ∅) := by
  refine ⟨by decide, by decide, by decide⟩

/-- C1 (amended): whenever the non-excluded candidates have pairwise
distinct scores and `K ≥ 1`, both Top-K Selector variants
(`topKFromScores`, the heap variant, and `topNFromScores`, the sorted-list
variant) return exactly the brute-force reference — all non-excluded
catalog items sorted descending by score, first `K` — as ordered lists (so
in particular the pair sets agree and the output is descending by score);
with tied scores only the boundary tie-breaking can differ. -/
theorem claim_C1_topK_selector_amended (M : Model) (scores : List ℚ) (K : ℕ)
    (exclude : Finset ℤ) (hK : 1 ≤ K)
    (hd : (nonExcluded M scores exclude).Pairwise fun a b => a.score ≠ b.score) :
    topKFromScores M scores K exclude = bruteForceTopK M scores K exclude ∧
    topNFromScores M scores K exclude = bruteForceTopK M scores K exclude ∧
    List.Sorted rdesc (topKFromScores M scores K exclude) ∧
    List.Sorted rdesc (topNFromScores M scores K exclude) := by
  have h1 := heap_variant_correct M scores K exclude hK hd
  have h2 := list_variant_correct M scores K exclude hK hd
  have hsorted : List.Sorted rdesc (bruteForceTopK M scores K exclude) :=
    List.Pairwise.sublist (List.take_sublist K _)
      (List.sorted_insertionSort rdesc _)
  exact ⟨h1, h2, h1 ▸ hsorted, h2 ▸ hsorted⟩

theorem claim_C1_topK_selector_amended_witness :
    topKFromScores M3 [3, 1, 2] 2 {10} = bruteForceTopK M3 [3, 1, 2] 2 {10} ∧
    topNFromScores M3 [3, 1, 2] 2 {10} = bruteForceTopK M3 [3, 1, 2] 2 {10} :=
  ⟨(claim_C1_topK_selector_amended M3 [3, 1, 2] 2 {10} (by decide) (by decide)).1,
   (claim_C1_topK_selector_amended M3 [3, 1, 2] 2 {10} (by decide) (by decide)).2.1⟩

/-- C2: `buildUserVector` computes exactly the spec's weighted-average
formula (skip absent ids, centered weight `w = rating - 3`, skip `w = 0`,
accumulate `sum |w|` and `w * itemVector`, divide when the denominator is
positive, zero vector otherwise); when every rating is absent from the
index or neutral (`rating = 3`) the result is the zero vector of length
`cols` and every item's dot-product score is `0`. -/
theorem claim_C2_buildUserVector (M : Model) (ratings : List RatingInput) :
    buildUserVector M ratings = specUserVector M ratings ∧
    ((∀ r ∈ ratings, movieIdToIndex M r.movieId = none ∨ r.rating = 3) →
      buildUserVector M ratings = List.replicate M.cols 0 ∧
      ∀ i : ℕ, dotItemWithUser M i (buildUserVector M ratings) = 0) := by
  refine ⟨buildUserVector_eq_spec M ratings, ?_⟩
  intro h
  have hz := buildUserVector_zero_of_neutral M ratings h
  refine ⟨hz, ?_⟩
  intro i
  rw [hz]
  exact dotItemWithUser_replicate_zero M i

theorem claim_C2_buildUserVector_witness :
    buildUserVector M3 [⟨10, 3⟩] = specUserVector M3 [⟨10, 3⟩] ∧
    buildUserVector M3 [⟨10, 3⟩] = List.replicate M3.cols 0 ∧
    dotItemWithUser M3 0 (buildUserVector M3 [⟨10, 3⟩]) = 0 :=
  ⟨(claim_C2_buildUserVector M3 [⟨10, 3⟩]).1,
   ((claim_C2_buildUserVector M3 [⟨10, 3⟩]).2 (by decide)).1,
   ((claim_C2_buildUserVector M3 [⟨10, 3⟩]).2 (by decide)).2 0⟩

/-- C3: every item identifier occurring in a valid (normalized) input
rating is in the exclusion set handed to the Top-K Selector, and never
occurs as the `movieId` of any entry of the returned pool. -/
theorem claim_C3_exclusion_invariant (M : Model) (hasKey : Bool)
    (oracle : ℤ → FetchOutcome) (body : Body) (s : FetchState)
    (r : RatingInput) (hr : r ∈ cleanRatings (bodyRatings body)) :
    r.movieId ∈ excludeSet (cleanRatings (bodyRatings body)) ∧
    ∀ (resp : PostResponse) (s1 : FetchState),
      POST M hasKey oracle body s = (.ok resp, s1) →
      ∀ e ∈ resp.recs, e.movieId ≠ r.movieId := by
  refine ⟨clean_mem_exclude _ r hr, ?_⟩
  intro resp s1 h e he hmid
  exact POST_exclusion M hasKey oracle body s resp s1 h e he
    (hmid ▸ clean_mem_exclude _ r hr)

theorem claim_C3_exclusion_invariant_witness :
    (⟨10, 5⟩ : RatingInput).movieId ∈
      excludeSet (cleanRatings (bodyRatings
        (Body.ratings [.obj (.num 10) (.num 5)]))) ∧
    ∀ (resp : PostResponse) (s1 : FetchState),
      POST M3 false oracleNotOk (Body.ratings [.obj (.num 10) (.num 5)]) s0 =
        (.ok resp, s1) →
      ∀ e ∈ resp.recs, e.movieId ≠ (⟨10, 5⟩ : RatingInput).movieId :=
  claim_C3_exclusion_invariant M3 false oracleNotOk
    (Body.ratings [.obj (.num 10) (.num 5)]) s0 ⟨10, 5⟩ (by decide)

/-- C4 counterexample: on a cache miss whose outbound call fails with a
network error, `tmdbMovieFull` does not return a no-data result — the
rejection propagates to the caller as an exception (and likewise for a
malformed body); only a non-success HTTP status yields `null`. -/
theorem claim_C4_counterexample :
    (tmdbMovieFull true (fun _ => .netError) s0 5).1 =
      (.error () : Except Unit (Option TmdbPayload)) ∧
    (.error () : Except Unit (Option TmdbPayload)) ≠ .ok none := by
  refine ⟨rfl, by simp⟩

/-- C4 (amended): with the credential present — a cache hit returns the
cached payload with no outbound call and no state change; a miss issues
exactly one outbound call; a non-success status returns a no-data result; a
network error or malformed body propagates as an exception instead of a
no-data result; every failure leaves the cache unchanged (eligible for
retry); only a successful parsed response is written into the cache. -/
theorem claim_C4_cache_discipline_amended (oracle : ℤ → FetchOutcome)
    (s : FetchState) (tmdbId : ℤ) :
    (∀ p, cacheLookup s.cache tmdbId = some p →
      tmdbMovieFull true oracle s tmdbId = (.ok (some p), s)) ∧
    (cacheLookup s.cache tmdbId = none →
      (tmdbMovieFull true oracle s tmdbId).2.calls = s.calls ++ [tmdbId] ∧
      (oracle tmdbId = .notOk →
        tmdbMovieFull true oracle s tmdbId =
          (.ok none, { s with calls := s.calls ++ [tmdbId] })) ∧
      (oracle tmdbId = .netError →
        tmdbMovieFull true oracle s tmdbId =
          (.error (), { s with calls := s.calls ++ [tmdbId] })) ∧
      (oracle tmdbId = .malformedBody →
        tmdbMovieFull true oracle s tmdbId =
          (.error (), { s with calls := s.calls ++ [tmdbId] })) ∧
      (∀ d, oracle tmdbId = .success d →
        tmdbMovieFull true oracle s tmdbId =
          (.ok (some (parseTmdb d)),
            { cache := s.cache ++ [(tmdbId, parseTmdb d)],
              calls := s.calls ++ [tmdbId] }))) := by
  constructor
  · intro p hp
    exact tmdbMovieFull_hit oracle s tmdbId p hp
  · intro hmiss
    refine ⟨?_, ?_, ?_, ?_, ?_⟩
    · cases ho : oracle tmdbId
      · rw [tmdbMovieFull_miss_netError oracle s tmdbId hmiss ho]
      · rw [tmdbMovieFull_miss_notOk oracle s tmdbId hmiss ho]
      · rw [tmdbMovieFull_miss_malformed oracle s tmdbId hmiss ho]
      · rw [tmdbMovieFull_miss_success oracle s tmdbId _ hmiss ho]
    · intro ho
      exact tmdbMovieFull_miss_notOk oracle s tmdbId hmiss ho
    · intro ho
      exact tmdbMovieFull_miss_netError oracle s tmdbId hmiss ho
    · intro ho
      exact tmdbMovieFull_miss_malformed oracle s tmdbId hmiss ho
    · intro d ho
      exact tmdbMovieFull_miss_success oracle s tmdbId d hmiss ho

theorem claim_C4_cache_discipline_amended_witness :
    tmdbMovieFull true oracleNotOk s0 5 = (.ok none, ⟨[], [5]⟩) :=
  ((claim_C4_cache_discipline_amended oracleNotOk s0 5).2 (by decide)).2.1 rfl

/-- C5: the normalized rating list keeps exactly the records whose
`movieId` and `rating` are both numbers with the rating in the closed
interval `[1, 5]`, truncating the id toward zero; a missing or non-array
`ratings` field or unparseable JSON degrades to the empty rating list, and
no request body ever makes `POST` fail for body reasons (checked with the
enrichment fetcher short-circuited so that only body handling can fail). -/
theorem claim_C5_input_normalization (body : Body) (raws : List RawRecord) :
    cleanRatings raws = raws.filterMap specValidRating ∧
    cleanRatings (bodyRatings Body.parseFail) = [] ∧
    cleanRatings (bodyRatings Body.noRatings) = [] ∧
    (∀ (M : Model) (oracle : ℤ → FetchOutcome) (s : FetchState),
      ∃ r : PostResponse, POST M false oracle body s = (.ok r, s)) := by
  refine ⟨cleanRatings_eq_filterMap raws, rfl, rfl, ?_⟩
  intro M oracle s
  obtain ⟨r, hr, -⟩ := POST_nokey M oracle body s
  exact ⟨r, hr⟩

/-- C6: for every ranked pool of `n` entries and enrichment limit `L`, the
assembled response preserves pool order with rank fields `1..n` in
sequence, each entry carrying the pool entry's `movieId`, its mapped
external id and its rounded score; every entry at a position at or past
`min(L, n)` has all nine metadata fields `null` — so only the first
`min(L, n)` entries may carry non-null metadata. -/
theorem claim_C6_enrichment_window (hasKey : Bool) (oracle : ℤ → FetchOutcome)
    (M : Model) (L : ℕ) (pool : List TopItem) (s : FetchState)
    (recs : List RecEntry) (s1 : FetchState)
    (h : assembleRecs hasKey oracle M L pool s = (.ok recs, s1)) :
    recs.length = pool.length ∧
    (∀ k, k < pool.length →
      (recs.getD k default).rank = k + 1 ∧
      (recs.getD k default).movieId = (pool.getD k default).movieId ∧
      (recs.getD k default).tmdbId = M.mid2tmdb (pool.getD k default).movieId ∧
      (recs.getD k default).score = round6 (pool.getD k default).score) ∧
    (∀ k, min L pool.length ≤ k → k < pool.length →
      metadataNull (recs.getD k default)) := by
  obtain ⟨h1, h2, h3, -⟩ :=
    assembleRecs_spec hasKey oracle M L pool s recs s1 h
  exact ⟨h1, h2, h3⟩

theorem claim_C6_enrichment_window_witness :
    ([mkRecEntry 1 ⟨1, 5⟩ none none, mkRecEntry 2 ⟨2, 4⟩ none none,
      mkRecEntry 3 ⟨3, 3⟩ none none, mkRecEntry 4 ⟨4, 2⟩ none none,
      mkRecEntry 5 ⟨5, 1⟩ none none] : List RecEntry).length = pool5.length ∧
    (∀ k, k < pool5.length →
      (([mkRecEntry 1 ⟨1, 5⟩ none none, mkRecEntry 2 ⟨2, 4⟩ none none,
        mkRecEntry 3 ⟨3, 3⟩ none none, mkRecEntry 4 ⟨4, 2⟩ none none,
        mkRecEntry 5 ⟨5, 1⟩ none none] : List RecEntry).getD k default).rank =
          k + 1 ∧
      (([mkRecEntry 1 ⟨1, 5⟩ none none, mkRecEntry 2 ⟨2, 4⟩ none none,
        mkRecEntry 3 ⟨3, 3⟩ none none, mkRecEntry 4 ⟨4, 2⟩ none none,
        mkRecEntry 5 ⟨5, 1⟩ none none] : List RecEntry).getD k default).movieId =
          (pool5.getD k default).movieId ∧
      (([mkRecEntry 1 ⟨1, 5⟩ none none, mkRecEntry 2 ⟨2, 4⟩ none none,
        mkRecEntry 3 ⟨3, 3⟩ none none, mkRecEntry 4 ⟨4, 2⟩ none none,
        mkRecEntry 5 ⟨5, 1⟩ none none] : List RecEntry).getD k default).tmdbId =
          M3.mid2tmdb (pool5.getD k default).movieId ∧
      (([mkRecEntry 1 ⟨1, 5⟩ none none, mkRecEntry 2 ⟨2, 4⟩ none none,
        mkRecEntry 3 ⟨3, 3⟩ none none, mkRecEntry 4 ⟨4, 2⟩ none none,
        mkRecEntry 5 ⟨5, 1⟩ none none] : List RecEntry).getD k default).score =
          round6 (pool5.getD k default).score) ∧
    (∀ k, min 2 pool5.length ≤ k → k < pool5.length →
      metadataNull (([mkRecEntry 1 ⟨1, 5⟩ none none,
        mkRecEntry 2 ⟨2, 4⟩ none none, mkRecEntry 3 ⟨3, 3⟩ none none,
        mkRecEntry 4 ⟨4, 2⟩ none none,
        mkRecEntry 5 ⟨5, 1⟩ none none] : List RecEntry).getD k default)) :=
  claim_C6_enrichment_window false oracleNotOk M3 2 pool5 s0
    [mkRecEntry 1 ⟨1, 5⟩ none none, mkRecEntry 2 ⟨2, 4⟩ none none,
      mkRecEntry 3 ⟨3, 3⟩ none none, mkRecEntry 4 ⟨4, 2⟩ none none,
      mkRecEntry 5 ⟨5, 1⟩ none none] s0 (by rfl)

/-- C7: when the access credential is absent, `tmdbMovieFull` returns a
no-data result for every external id without issuing any outbound call or
touching the cache, and consequently every entry of the ranking response
carries null metadata fields. -/
theorem claim_C7_credential_absent (oracle : ℤ → FetchOutcome) (s : FetchState)
    (tmdbId : ℤ) (M : Model) (body : Body) :
    tmdbMovieFull false oracle s tmdbId = (.ok none, s) ∧
    ∃ r : PostResponse, POST M false oracle body s = (.ok r, s) ∧
      ∀ e ∈ r.recs, metadataNull e :=
  ⟨tmdbMovieFull_nokey oracle s tmdbId, POST_nokey M oracle body s⟩

/-- C8 counterexample: artifacts whose decoded factor buffer holds a single
entry while the declared shape is `2 × 2` (so the byte length `4` does not
match `rows * cols = 4` entries / 16 bytes) load successfully and mark the
store loaded — `loadModelOnce` performs no byte-length validation, against
the claim that it raises a load error. -/
theorem claim_C8_counterexample :
    loadModelOnce
      { shapeJson := .ok (2, 2), factorsFile := .ok [5],
        movieIdsJson := .ok [7, 8], tmdbJson := .ok (fun _ => none) } =
      .ok { rows := 2, cols := 2, itemFactors := [5], movieIds := [7, 8],
            mid2tmdb := fun _ => none } ∧
    ([(5 : ℚ)].length ≠ 2 * 2) :=
  ⟨rfl, by decide⟩

/-- C8 (amended): `loadModelOnce` fails (the exception propagates and the
store is not marked loaded) exactly when one of the four backing artifacts
is missing or malformed — its read or parse throws; it performs no
validation of the factor-matrix buffer length against the declared shape,
so a mismatched buffer loads successfully. -/
theorem claim_C8_load_amended (A : Artifacts) :
    (loadModelOnce A).isOk =
      (A.shapeJson.isOk && A.factorsFile.isOk && A.movieIdsJson.isOk &&
        A.tmdbJson.isOk) := by
  rcases A with ⟨sh, fa, mi, tm⟩
  cases sh <;> cases fa <;> cases mi <;> cases tm <;> rfl

/-- The mode string of a `POST` result (empty for a rejected request). -/
def modeOf : Except Unit PostResponse → String
  | .ok r => r.mode
  | .error _ => ""

/-- C9 counterexample: a `POST` request whose supplied rating list is empty
is answered with mode `"personalized"`, not the static/popular fallback
value `"static"` — the fallback mode is selected by endpoint (`GET`), not
by rating-list emptiness. -/
theorem claim_C9_counterexample :
    modeOf (POST M30 false oracleNotOk (Body.ratings []) s0).1 =
      "personalized" ∧
    "personalized" ≠ "static" :=
  ⟨by decide, by decide⟩

/-- C9 (amended): the ranking response carries a mode flag distinguishing
`"personalized"` from the static fallback `"static"`; the `POST` handler
always reports `"personalized"` — even when the supplied rating list is
empty — while `"static"` is returned by the `GET` handler, which serves the
static file regardless of ratings. -/
theorem claim_C9_mode_amended (M : Model) (hasKey : Bool)
    (oracle : ℤ → FetchOutcome) (body : Body) (s : FetchState) :
    (∀ (r : PostResponse) (s1 : FetchState),
      POST M hasKey oracle body s = (.ok r, s1) → r.mode = "personalized") ∧
    ∀ (α : Type) (staticRecs : List α), (GET staticRecs).mode = "static" :=
  ⟨fun r s1 h => POST_mode M hasKey oracle body s r s1 h, fun _ _ => rfl⟩

theorem claim_C9_mode_amended_witness :
    modeOf (POST M30 false oracleNotOk (Body.ratings []) s0).1 =
      "personalized" ∧
    (GET ([] : List RecEntry)).mode = "static" := by
  constructor
  · rcases hp : POST M30 false oracleNotOk (Body.ratings []) s0 with ⟨e, s1⟩
    cases e with
    | error u =>
      obtain ⟨r, hr, -⟩ := POST_nokey M30 oracleNotOk (Body.ratings []) s0
      rw [hp] at hr
      exact absurd (congrArg Prod.fst hr) (by simp)
    | ok r =>
      exact (claim_C9_mode_amended M30 false oracleNotOk
        (Body.ratings []) s0).1 r s1 hp
  · exact (claim_C9_mode_amended M30 false oracleNotOk
      (Body.ratings []) s0).2 RecEntry []

/-- C10: a pool entry whose `movieId` maps to the external id `0` is
treated as having no external id for enrichment — no metadata fetch is
attempted for it and all its metadata fields are null even inside the
enrichment window, while its `tmdbId` field reports `0` (`some 0`) rather
than `null`; an absent mapping reports `null` (`none`). Every outbound call
issued comes from a head entry with a nonzero mapped id. -/
theorem claim_C10_zero_external_id (hasKey : Bool) (oracle : ℤ → FetchOutcome)
    (M : Model) (L : ℕ) (pool : List TopItem) (s : FetchState)
    (recs : List RecEntry) (s1 : FetchState)
    (h : assembleRecs hasKey oracle M L pool s = (.ok recs, s1)) :
    (∀ k, k < min L pool.length →
      M.mid2tmdb (pool.getD k default).movieId = some 0 →
      (recs.getD k default).tmdbId = some 0 ∧
        metadataNull (recs.getD k default)) ∧
    (∀ k, k < pool.length →
      M.mid2tmdb (pool.getD k default).movieId = none →
      (recs.getD k default).tmdbId = none) ∧
    (∀ c ∈ s1.calls, c ∈ s.calls ∨
      ∃ t ∈ pool.take (min L pool.length),
        ∃ n, M.mid2tmdb t.movieId = some n ∧ n ≠ 0 ∧ c = n) := by
  obtain ⟨-, hfields, -, hzero⟩ :=
    assembleRecs_spec hasKey oracle M L pool s recs s1 h
  refine ⟨?_, ?_, ?_⟩
  · intro k hk hmap
    have hfk := (hfields k (by omega)).2.2.1
    rw [hfk, hmap]
    exact ⟨rfl, hzero k hk (Or.inl hmap)⟩
  · intro k hk hmap
    have hfk := (hfields k hk).2.2.1
    rw [hfk, hmap]
  · intro c hc
    have hs1 : (assembleRecs hasKey oracle M L pool s).2 = s1 := by rw [h]
    exact assembleRecs_calls hasKey oracle M L pool s c (by rw [hs1]; exact hc)

theorem claim_C10_zero_external_id_witness :
    ((([mkRecEntry 1 ⟨1, 3⟩ (some 0) none,
        mkRecEntry 2 ⟨2, 2⟩ none none] : List RecEntry).getD 0 default).tmdbId =
          some 0 ∧
      metadataNull (([mkRecEntry 1 ⟨1, 3⟩ (some 0) none,
        mkRecEntry 2 ⟨2, 2⟩ none none] : List RecEntry).getD 0 default)) ∧
    (([mkRecEntry 1 ⟨1, 3⟩ (some 0) none,
        mkRecEntry 2 ⟨2, 2⟩ none none] : List RecEntry).getD 1 default).tmdbId =
          none ∧
    ∀ c ∈ s0.calls, False := by
  have hthm := claim_C10_zero_external_id true oracleNotOk Mzero 2
    [⟨1, 3⟩, ⟨2, 2⟩] s0
    [mkRecEntry 1 ⟨1, 3⟩ (some 0) none, mkRecEntry 2 ⟨2, 2⟩ none none] s0
    (by rfl)
  refine ⟨hthm.1 0 (by decide) (by decide), hthm.2.1 1 (by decide) (by decide), ?_⟩
  intro c hc
  simp [s0] at hc

end RecSys
